import Mathlib

/-!
Verification of the k-d tree module `src/js/kdTree.js` (i4Ds/ArtWebClient).

The development shallowly embeds the module:

* points are lists of integer coordinates (`Point`); the point buffer is a
  `List Point` (one entry per `elementSize`-sized window slot), and for the
  buffer-length claims also a flat `List ℤ` mirroring the typed array;
* `Node` mirrors the source's `Node` (fields `obj`, `depth`, `pos`, `left`,
  `right`; the non-owning `parent` back-reference carries no information and
  is omitted); a tree is a `Node` value, with `null` embedded as `Node.nil`;
* the generic score-driven binary heap (`BinaryHeap.push/pop/peek/bubbleUp/
  sinkDown`) is embedded over a backing `List` plus a score function;
* the nearest-neighbour search is embedded in an `Except JsErr` monad:
  JavaScript runtime type errors (property access on `null`/`undefined`)
  surface as `JsErr.typeError`, and the explicit exception taxonomy named by
  the specification is represented by the remaining constructors.

The external axis sort `quickSortIP` is required by the module
(`Requires typed array quicksort`) but is not part of `src/`; it is modelled
from the specification as a total-order sort along one axis.
-/

/-- A point: the `elementSize` coordinates of one buffer slot. -/
abbrev Point : Type := List ℤ

/-- Mirror of `Node` (kdTree.js line 27): `obj` is the point data, `depth` the
node depth (root 0), `pos` the stored absolute index (`this.pos = pos`), and
`left`/`right` the children (`null` becomes `Node.nil`).  The non-owning
`parent` pointer is not represented. -/
inductive Node : Type
  | nil : Node
  | node (obj : Point) (depth : Nat) (pos : Nat) (left : Node) (right : Node) : Node
  deriving DecidableEq

/-- Node count of a tree (used as termination measure for the search). -/
def tsize : Node → Nat
  | Node.nil => 0
  | Node.node _ _ _ l r => tsize l + tsize r + 1

/-- Multiset of the points stored in a tree. -/
def treePoints : Node → Multiset Point
  | Node.nil => 0
  | Node.node obj _ _ l r => obj ::ₘ (treePoints l + treePoints r)

/-- List of `(obj, pos)` pairs of all nodes of a tree. -/
def nodeList : Node → List (Point × Nat)
  | Node.nil => []
  | Node.node obj _ pos l r => (obj, pos) :: (nodeList l ++ nodeList r)

/-! ### The modelled axis sort

`quickSortIP` sorts a window of points in place by ascending coordinate
along one axis.  It is implemented outside this module; following the
specification it is modelled as a total-order sort along the axis,
implemented here as a stable insertion sort over a key function. -/

/-- Insert `p` into a list sorted by `key` (ascending), keeping stability. -/
def insertKey (key : α → ℤ) (p : α) : List α → List α
  | [] => [p]
  | q :: qs => if key p ≤ key q then p :: q :: qs else q :: insertKey key p qs

/-- Stable insertion sort by a key function. -/
def insSort (key : α → ℤ) : List α → List α
  | [] => []
  | p :: ps => insertKey key p (insSort key ps)

theorem insertKey_perm (key : α → ℤ) (p : α) (l : List α) :
    (insertKey key p l).Perm (p :: l) := by
  induction l with
  | nil => exact List.Perm.refl _
  | cons q qs ih =>
    by_cases h : key p ≤ key q
    · simp [insertKey, h]
    · simp only [insertKey, if_neg h]
      exact (ih.cons q).trans (List.Perm.swap p q qs)

theorem insSort_perm (key : α → ℤ) (l : List α) : (insSort key l).Perm l := by
  induction l with
  | nil => exact List.Perm.refl _
  | cons p ps ih =>
    exact (insertKey_perm key p (insSort key ps)).trans (ih.cons p)

theorem insSort_length (key : α → ℤ) (l : List α) :
    (insSort key l).length = l.length :=
  (insSort_perm key l).length_eq

theorem insertKey_pairwise (key : α → ℤ) (p : α) (l : List α)
    (h : List.Pairwise (fun a b => key a ≤ key b) l) :
    List.Pairwise (fun a b => key a ≤ key b) (insertKey key p l) := by
  induction l with
  | nil => simp [insertKey]
  | cons q qs ih =>
    rcases List.pairwise_cons.mp h with ⟨hq, hqs⟩
    by_cases hpq : key p ≤ key q
    · rw [insertKey, if_pos hpq]
      refine List.pairwise_cons.mpr ⟨?_, h⟩
      intro b hb
      rcases hb with _ | hb
      · exact hpq
      · exact le_trans hpq (hq b (by assumption))
    · rw [insertKey, if_neg hpq]
      refine List.pairwise_cons.mpr ⟨?_, ih hqs⟩
      intro b hb
      have hb' := (insertKey_perm key p qs).mem_iff.mp hb
      rcases List.mem_cons.mp hb' with rfl | hmem
      · exact le_of_not_le hpq
      · exact hq b hmem

theorem insSort_pairwise (key : α → ℤ) (l : List α) :
    List.Pairwise (fun a b => key a ≤ key b) (insSort key l) := by
  induction l with
  | nil => simp [insSort]
  | cons p ps ih => exact insertKey_pairwise key p _ ih

/-- Modelled from the spec: `quickSortIP` (the external typed-array quicksort
required by the module, not under `src/`) reorders a window of points by
ascending coordinate value along axis `dim` (spec section 4.2 step 4: a full
total-order sort of the window along the axis). -/
def quickSortIP (dim : Nat) (pts : List Point) : List Point :=
  insSort (fun p => p.getD dim 0) pts

theorem quickSortIP_perm (dim : Nat) (pts : List Point) :
    (quickSortIP dim pts).Perm pts := insSort_perm _ pts

theorem quickSortIP_length (dim : Nat) (pts : List Point) :
    (quickSortIP dim pts).length = pts.length := insSort_length _ pts

/-! ### The generic binary heap

Mirror of `BinaryHeap` (kdTree.js lines 175-296): a min-heap over a backing
array (`content`, here a `List α`) driven by a caller-supplied score function.
The heap state is just the backing list; each operation takes the score
function as a parameter. -/

namespace BinaryHeap

/-- Score of the element at array position `i` (out-of-range reads score `0`;
they never occur on the paths exercised by the module). -/
def scAt (score : α → ℤ) (l : List α) (i : Nat) : ℤ := (l.map score).getD i 0

/-- Parent index of array position `j`: `Math.floor((n + 1) / 2) - 1`
(kdTree.js line 238). -/
def par (j : Nat) : Nat := (j + 1) / 2 - 1

/-- Exchange the entries at positions `i` and `j`
(the two assignments in `bubbleUp`/`sinkDown`). -/
def swapL (l : List α) (i j : Nat) : List α :=
  match l.get? i, l.get? j with
  | some a, some b => (l.set i b).set j a
  | _, _ => l

/-- Mirror of `bubbleUp` (kdTree.js lines 232-252): while the element at `n`
scores below its parent, exchange it with the parent and continue there. -/
def bubbleUp (score : α → ℤ) (l : List α) (n : Nat) : List α :=
  if h : 0 < n ∧ scAt score l n < scAt score l (par n) then
    bubbleUp score (swapL l (par n) n) (par n)
  else l
termination_by n
decreasing_by
  have : (n + 1) / 2 - 1 < n := by omega
  simpa [par] using this

/-- The comparison threshold used by `sinkDown` for the right child: the
left child's score when the left child was already selected for swapping
(`swap !== null`), and the element's own score otherwise. -/
def sinkThreshold (score : α → ℤ) (l : List α) (n : Nat) : ℤ :=
  if (n + 1) * 2 - 1 < l.length ∧ scAt score l ((n + 1) * 2 - 1) < scAt score l n
  then scAt score l ((n + 1) * 2 - 1) else scAt score l n

theorem length_swapL (l : List α) (i j : Nat) : (swapL l i j).length = l.length := by
  unfold swapL
  rcases l.get? i with _ | a <;> rcases l.get? j with _ | b <;> simp

/-- Mirror of `sinkDown` (kdTree.js lines 254-295): compare the element at `n`
with its children `2n+1` and `2n+2`; swap with the right child if that child
exists and scores below the threshold, otherwise with the left child if it
exists and scores below the element, and continue from the swapped position. -/
def sinkDown (score : α → ℤ) (l : List α) (n : Nat) : List α :=
  if h2 : (n + 1) * 2 < l.length ∧ scAt score l ((n + 1) * 2) < sinkThreshold score l n then
    sinkDown score (swapL l n ((n + 1) * 2)) ((n + 1) * 2)
  else if h1 : (n + 1) * 2 - 1 < l.length ∧ scAt score l ((n + 1) * 2 - 1) < scAt score l n then
    sinkDown score (swapL l n ((n + 1) * 2 - 1)) ((n + 1) * 2 - 1)
  else l
termination_by l.length - n
decreasing_by
  · rw [length_swapL]; omega
  · rw [length_swapL]; omega

/-- Mirror of `push` (kdTree.js lines 181-186): append, then bubble up from
the last position. -/
def push (score : α → ℤ) (l : List α) (e : α) : List α :=
  bubbleUp score (l ++ [e]) l.length

/-- Mirror of `pop` (kdTree.js lines 188-200): return `content[0]`, move the
last element to the root slot and sink it down.  Popping an empty heap
returns `undefined` (`none`) and leaves the heap empty. -/
def pop (score : α → ℤ) (l : List α) : Option α × List α :=
  match l with
  | [] => (none, [])
  | [x] => (some x, [])
  | x :: y :: xs =>
      (some x, sinkDown score ((x :: y :: xs).dropLast.set 0 ((y :: xs).getLast (by simp))) 0)

/-- Mirror of `peek` (kdTree.js line 202): `content[0]` without removal. -/
def peek (l : List α) : Option α := l.head?

/-- Mirror of `size` (kdTree.js line 228). -/
def size (l : List α) : Nat := l.length

/-- The binary-heap invariant, in the parent formulation of the spec
(section 4.4): every non-root entry scores at least its parent at
`floor((n+1)/2) - 1`; equivalently every entry's score is at most both its
children's scores at `2n+1` and `2n+2`. -/
def heapProp (score : α → ℤ) (l : List α) : Prop :=
  ∀ j, j < l.length → 0 < j → scAt score l (par j) ≤ scAt score l j

instance (score : α → ℤ) (l : List α) : Decidable (heapProp score l) := by
  unfold heapProp
  exact Nat.decidableBallLT l.length _

end BinaryHeap

namespace BinaryHeap

theorem par_lt {j : Nat} (h : 0 < j) : par j < j := by
  unfold par; omega

theorem par_eq_iff {j n : Nat} (h : 0 < j) : par j = n ↔ j = 2 * n + 1 ∨ j = 2 * n + 2 := by
  unfold par; omega

theorem scAt_lt_length (score : α → ℤ) (l : List α) (i : Nat) (h : i < l.length) :
    scAt score l i = score l[i] := by
  unfold scAt
  rw [List.getD_eq_getElem _ _ (by simpa using h), List.getElem_map]

theorem scAt_set_self (score : α → ℤ) (l : List α) (i : Nat) (a : α) (h : i < l.length) :
    scAt score (l.set i a) i = score a := by
  unfold scAt
  rw [List.map_set]
  rw [List.getD_eq_getElem _ _ (by simpa using h), List.getElem_set_self]

theorem scAt_set_ne (score : α → ℤ) (l : List α) (i j : Nat) (a : α) (hne : i ≠ j) :
    scAt score (l.set i a) j = scAt score l j := by
  unfold scAt
  rw [List.map_set]
  by_cases hj : j < l.length
  · rw [List.getD_eq_getElem _ _ (by simpa using hj),
      List.getD_eq_getElem _ _ (by simpa using hj), List.getElem_set_ne hne]
  · rw [List.getD_eq_default _ _ (by simpa using hj), List.getD_eq_default _ _ (by simpa using hj)]

theorem get?_eq_some_getD (l : List α) (i : Nat) (d : α) (h : i < l.length) :
    l.get? i = some (l.getD i d) := by
  rw [List.get?_eq_get h, List.getD_eq_getElem _ _ h]
  simp

theorem swapL_of_lt (l : List α) (i j : Nat) (hi : i < l.length) (hj : j < l.length) :
    swapL l i j = (l.set i l[j]).set j l[i] := by
  unfold swapL
  rw [List.get?_eq_get hi, List.get?_eq_get hj]
  simp

theorem scAt_swapL_fst (score : α → ℤ) (l : List α) (i j : Nat)
    (hi : i < l.length) (hj : j < l.length) (hne : i ≠ j) :
    scAt score (swapL l i j) i = scAt score l j := by
  rw [swapL_of_lt l i j hi hj, scAt_set_ne _ _ j i _ (Ne.symm hne),
    scAt_set_self _ _ i _ hi, scAt_lt_length _ _ j hj]

theorem scAt_swapL_snd (score : α → ℤ) (l : List α) (i j : Nat)
    (hi : i < l.length) (hj : j < l.length) :
    scAt score (swapL l i j) j = scAt score l i := by
  by_cases hne : i = j
  · subst hne
    rw [swapL_of_lt l i i hi hi]
    rw [List.set_set, scAt_set_self _ _ i _ hi, scAt_lt_length _ _ i hi]
  · rw [swapL_of_lt l i j hi hj, scAt_set_self _ _ j _ (by simpa using hj),
      scAt_lt_length _ _ i hi]

theorem scAt_swapL_other (score : α → ℤ) (l : List α) (i j k : Nat)
    (hki : k ≠ i) (hkj : k ≠ j) :
    scAt score (swapL l i j) k = scAt score l k := by
  unfold swapL
  rcases l.get? i with _ | a <;> rcases l.get? j with _ | b <;>
    first
      | rfl
      | rw [scAt_set_ne _ _ j k _ (Ne.symm hkj), scAt_set_ne _ _ i k _ (Ne.symm hki)]

theorem add_singleton (s : Multiset α) (a : α) : s + {a} = a ::ₘ s := by
  rw [add_comm, Multiset.singleton_add]

theorem multiset_set (l : List α) : ∀ (n : Nat) (a : α) (h : n < l.length),
    ((l.set n a : List α) : Multiset α) + {l[n]} = (l : Multiset α) + {a} := by
  induction l with
  | nil => intro n a h; simp at h
  | cons x xs ih =>
    intro n a h
    cases n with
    | zero =>
      simp only [List.set, List.getElem_cons_zero]
      rw [show ((a :: xs : List α) : Multiset α) = a ::ₘ (xs : Multiset α) from by simp,
        show ((x :: xs : List α) : Multiset α) = x ::ₘ (xs : Multiset α) from by simp,
        add_singleton, add_singleton, Multiset.cons_swap]
    | succ m =>
      have hm : m < xs.length := by simpa using h
      simp only [List.set, List.getElem_cons_succ]
      rw [show ((x :: xs.set m a : List α) : Multiset α) = x ::ₘ ((xs.set m a : List α) : Multiset α) from by simp,
        show ((x :: xs : List α) : Multiset α) = x ::ₘ (xs : Multiset α) from by simp,
        Multiset.cons_add, Multiset.cons_add, ih m a hm]

theorem swapL_multiset (l : List α) (i j : Nat) :
    ((swapL l i j : List α) : Multiset α) = (l : Multiset α) := by
  unfold swapL
  rcases hgi : l.get? i with _ | a
  · rfl
  rcases hgj : l.get? j with _ | b
  · rfl
  rcases List.get?_eq_some.mp hgi with ⟨hi, ha⟩
  rcases List.get?_eq_some.mp hgj with ⟨hj, hb⟩
  have ha' : l[i] = a := by rw [← ha]; simp
  have hb' : l[j] = b := by rw [← hb]; simp
  by_cases hne : i = j
  · subst hne
    show (((l.set i b).set i a : List α) : Multiset α) = (l : Multiset α)
    rw [List.set_set]
    have h1 := multiset_set l i a hi
    rw [ha'] at h1
    exact add_right_cancel h1
  · show (((l.set i b).set j a : List α) : Multiset α) = (l : Multiset α)
    have h1 : ((l.set i b : List α) : Multiset α) + {l[i]} = (l : Multiset α) + {b} :=
      multiset_set l i b hi
    have hj' : j < (l.set i b).length := by simpa using hj
    have h2 : (((l.set i b).set j a : List α) : Multiset α) + {(l.set i b)[j]}
        = ((l.set i b : List α) : Multiset α) + {a} := multiset_set (l.set i b) j a hj'
    have hgetj : (l.set i b)[j] = l[j] := List.getElem_set_ne hne hj'
    rw [hgetj, hb'] at h2
    rw [ha'] at h1
    have key : (((l.set i b).set j a : List α) : Multiset α) + {b} + {a}
        = ((l : List α) : Multiset α) + {b} + {a} := by
      rw [h2, h1]
    have key2 : (((l.set i b).set j a : List α) : Multiset α) + {b}
        = ((l : List α) : Multiset α) + {b} := add_right_cancel key
    exact add_right_cancel key2

theorem length_bubbleUp (score : α → ℤ) (l : List α) (n : Nat) :
    (bubbleUp score l n).length = l.length := by
  induction l, n using bubbleUp.induct score with
  | case1 l n h ih => rw [bubbleUp, dif_pos h, ih, length_swapL]
  | case2 l n h => rw [bubbleUp, dif_neg h]

theorem bubbleUp_multiset (score : α → ℤ) (l : List α) (n : Nat) :
    ((bubbleUp score l n : List α) : Multiset α) = (l : Multiset α) := by
  induction l, n using bubbleUp.induct score with
  | case1 l n h ih => rw [bubbleUp, dif_pos h, ih, swapL_multiset]
  | case2 l n h => rw [bubbleUp, dif_neg h]

theorem length_sinkDown (score : α → ℤ) (l : List α) (n : Nat) :
    (sinkDown score l n).length = l.length := by
  induction l, n using sinkDown.induct score with
  | case1 l n h ih => rw [sinkDown, dif_pos h, ih, length_swapL]
  | case2 l n h2 h ih => rw [sinkDown, dif_neg h2, dif_pos h, ih, length_swapL]
  | case3 l n h2 h1 => rw [sinkDown, dif_neg h2, dif_neg h1]

theorem sinkDown_multiset (score : α → ℤ) (l : List α) (n : Nat) :
    ((sinkDown score l n : List α) : Multiset α) = (l : Multiset α) := by
  induction l, n using sinkDown.induct score with
  | case1 l n h ih => rw [sinkDown, dif_pos h, ih, swapL_multiset]
  | case2 l n h2 h ih => rw [sinkDown, dif_neg h2, dif_pos h, ih, swapL_multiset]
  | case3 l n h2 h1 => rw [sinkDown, dif_neg h2, dif_neg h1]

theorem length_push (score : α → ℤ) (l : List α) (e : α) :
    (push score l e).length = l.length + 1 := by
  unfold push
  rw [length_bubbleUp]
  simp

theorem push_multiset (score : α → ℤ) (l : List α) (e : α) :
    ((push score l e : List α) : Multiset α) = e ::ₘ (l : Multiset α) := by
  unfold push
  rw [bubbleUp_multiset]
  simp

theorem pop_multiset (score : α → ℤ) (x : α) (xs : List α) :
    (((pop score (x :: xs)).2 : List α) : Multiset α) = (xs : Multiset α) := by
  rcases xs with _ | ⟨y, ys⟩
  · simp [pop]
  · rw [pop, sinkDown_multiset]
    have hlen0 : 0 < (x :: y :: ys).dropLast.length := by simp
    have h0 : (x :: y :: ys).dropLast[0] = x := rfl
    have hset := multiset_set ((x :: y :: ys).dropLast) 0 ((y :: ys).getLast (by simp)) hlen0
    rw [h0] at hset
    have hlast : ((x :: y :: ys).dropLast : Multiset α) + {(y :: ys).getLast (by simp)}
        = ((x :: y :: ys : List α) : Multiset α) := by
      have hgl : (x :: y :: ys).getLast (by simp) = (y :: ys).getLast (by simp) :=
        List.getLast_cons (by simp)
      have happ := List.dropLast_append_getLast (l := x :: y :: ys) (by simp)
      calc ((x :: y :: ys).dropLast : Multiset α) + {(y :: ys).getLast (by simp)}
          = ((x :: y :: ys).dropLast : Multiset α) + {(x :: y :: ys).getLast (by simp)} := by rw [hgl]
        _ = (((x :: y :: ys).dropLast ++ [(x :: y :: ys).getLast (by simp)] : List α) : Multiset α) := rfl
        _ = ((x :: y :: ys : List α) : Multiset α) := by rw [happ]
    have hkey := hset.trans hlast
    have hx : ((x :: y :: ys : List α) : Multiset α)
        = ((y :: ys : List α) : Multiset α) + {x} := by
      rw [add_singleton]; simp
    rw [hx] at hkey
    exact add_right_cancel hkey

theorem mem_push (score : α → ℤ) (l : List α) (e e' : α) (h : e' ∈ push score l e) :
    e' = e ∨ e' ∈ l := by
  have := push_multiset score l e
  have hm : e' ∈ ((push score l e : List α) : Multiset α) := by
    simpa using h
  rw [this] at hm
  rcases Multiset.mem_cons.mp hm with h' | h'
  · exact Or.inl h'
  · exact Or.inr (by simpa using h')

theorem mem_pop (score : α → ℤ) (x e' : α) (xs : List α) (h : e' ∈ (pop score (x :: xs)).2) :
    e' ∈ xs := by
  have := pop_multiset score x xs
  have hm : e' ∈ (((pop score (x :: xs)).2 : List α) : Multiset α) := by simpa using h
  rw [this] at hm
  simpa using hm

/-- `bubbleUp` restores the heap property: if all parent links except the one
into `n` are in order, and `n`'s own parent already bounds `n`'s children,
then the whole array satisfies the heap property after bubbling up from `n`. -/
theorem bubbleUp_heapProp (score : α → ℤ) (l : List α) (n : Nat) :
    n < l.length →
    (∀ j, j < l.length → 0 < j → j ≠ n → scAt score l (par j) ≤ scAt score l j) →
    (∀ j, j < l.length → 0 < j → par j = n → 0 < n → scAt score l (par n) ≤ scAt score l j) →
    heapProp score (bubbleUp score l n) := by
  induction l, n using bubbleUp.induct score with
  | case1 l n hc ih =>
    intro hn hex hgc
    rw [bubbleUp, dif_pos hc]
    rcases hc with ⟨hn0, hlt⟩
    have hpn : par n < n := par_lt hn0
    have hpl : par n < l.length := lt_trans hpn hn
    have hlen' : (swapL l (par n) n).length = l.length := length_swapL l (par n) n
    have hfst : scAt score (swapL l (par n) n) (par n) = scAt score l n :=
      scAt_swapL_fst score l (par n) n hpl hn (Nat.ne_of_lt hpn)
    have hsnd : scAt score (swapL l (par n) n) n = scAt score l (par n) :=
      scAt_swapL_snd score l (par n) n hpl hn
    have hoth : ∀ k, k ≠ par n → k ≠ n → scAt score (swapL l (par n) n) k = scAt score l k :=
      fun k h1 h2 => scAt_swapL_other score l (par n) n k h1 h2
    apply ih
    · omega
    · -- all parent links except the one into (par n) hold in the swapped array
      intro i hi hi0 hip
      rw [hlen'] at hi
      by_cases hin : i = n
      · rw [hin, hfst, hsnd]
        exact le_of_lt hlt
      · have hisc : scAt score (swapL l (par n) n) i = scAt score l i := hoth i hip hin
        by_cases hpi : par i = n
        · rw [hpi, hsnd, hisc]
          exact hgc i hi hi0 hpi hn0
        · by_cases hpi2 : par i = par n
          · rw [hpi2, hfst, hisc]
            have h2 : scAt score l (par n) ≤ scAt score l i := by
              rw [← hpi2]; exact hex i hi hi0 hin
            exact le_of_lt (lt_of_lt_of_le hlt h2)
          · rw [hoth (par i) hpi2 hpi, hisc]
            exact hex i hi hi0 hin
    · -- the grandparent bounds the children of (par n) in the swapped array
      intro i hi hi0 hpi hp0
      rw [hlen'] at hi
      have hppn : par (par n) < par n := par_lt hp0
      have hpp1 : par (par n) ≠ par n := Nat.ne_of_lt hppn
      have hpp2 : par (par n) ≠ n := Nat.ne_of_lt (lt_trans hppn hpn)
      rw [hoth (par (par n)) hpp1 hpp2]
      have hbase : scAt score l (par (par n)) ≤ scAt score l (par n) :=
        hex (par n) hpl hp0 (Nat.ne_of_lt hpn)
      by_cases hin : i = n
      · rw [hin, hsnd]
        exact hbase
      · have hine : i ≠ par n := by
          have := par_lt hi0
          omega
        rw [hoth i hine hin]
        have h2 : scAt score l (par n) ≤ scAt score l i := by
          rw [← hpi]; exact hex i hi hi0 hin
        exact le_trans hbase h2
  | case2 l n hc =>
    intro hn hex hgc
    rw [bubbleUp, dif_neg hc]
    intro i hi hi0
    by_cases hin : i = n
    · rw [hin]
      have hn0 : 0 < n := hin ▸ hi0
      have h1 : ¬ scAt score l n < scAt score l (par n) := fun hlt => hc ⟨hn0, hlt⟩
      exact not_lt.mp h1
    · exact hex i hi hi0 hin

theorem scAt_append_lt (score : α → ℤ) (l l2 : List α) (i : Nat) (h : i < l.length) :
    scAt score (l ++ l2) i = scAt score l i := by
  unfold scAt
  rw [List.map_append]
  exact List.getD_append _ _ _ _ (by simpa using h)

theorem push_heapProp (score : α → ℤ) (l : List α) (e : α) (h : heapProp score l) :
    heapProp score (push score l e) := by
  unfold push
  apply bubbleUp_heapProp
  · simp
  · intro j hj hj0 hjn
    have hjl : j < l.length := by
      simp only [List.length_append, List.length_cons, List.length_nil] at hj
      omega
    have hpjl : par j < l.length := lt_trans (par_lt hj0) hjl
    rw [scAt_append_lt score l [e] j hjl, scAt_append_lt score l [e] (par j) hpjl]
    exact h j hjl hj0
  · intro j hj hj0 hpj hn0
    exfalso
    have : par j < j := par_lt hj0
    simp only [List.length_append, List.length_cons, List.length_nil] at hj
    have h2 : j = 2 * l.length + 1 ∨ j = 2 * l.length + 2 := (par_eq_iff hj0).mp hpj
    omega

/-- `sinkDown` restores the heap property: if all parent links except those
out of `n` (into `n`'s children) are in order, and `n`'s parent already
bounds `n`'s children, the array is a heap after sinking down from `n`. -/
theorem sinkDown_heapProp (score : α → ℤ) (l : List α) (n : Nat) :
    (∀ j, j < l.length → 0 < j → par j ≠ n → scAt score l (par j) ≤ scAt score l j) →
    (∀ j, j < l.length → 0 < j → par j = n → 0 < n → scAt score l (par n) ≤ scAt score l j) →
    heapProp score (sinkDown score l n) := by
  induction l, n using sinkDown.induct score with
  | case1 l n hc ih =>
    -- swap with the right child c2 = 2n+2
    rw [sinkDown, dif_pos hc]
    intro hex hpar
    rcases hc with ⟨hc2len, hc2lt⟩
    set c2 := (n + 1) * 2 with hc2def
    set c1 := (n + 1) * 2 - 1 with hc1def
    have hnlen : n < l.length := by omega
    have hnc2 : n ≠ c2 := by omega
    have hc1c2 : c1 ≠ c2 := by omega
    have hnc1 : n ≠ c1 := by omega
    have hparc2 : par c2 = n := by unfold par; omega
    have hparc1 : par c1 = n := by unfold par; omega
    have hc1len : c1 < l.length := by omega
    -- the two facts packed into the branch condition
    have hlt2 : scAt score l c2 < scAt score l n := by
      unfold sinkThreshold at hc2lt
      by_cases hb : c1 < l.length ∧ scAt score l c1 < scAt score l n
      · rw [if_pos hb] at hc2lt
        exact lt_trans hc2lt hb.2
      · rw [if_neg hb] at hc2lt
        exact hc2lt
    have hlt21 : scAt score l c2 < scAt score l c1 := by
      unfold sinkThreshold at hc2lt
      by_cases hb : c1 < l.length ∧ scAt score l c1 < scAt score l n
      · rw [if_pos hb] at hc2lt
        exact hc2lt
      · rw [if_neg hb] at hc2lt
        have : ¬ scAt score l c1 < scAt score l n := fun hl => hb ⟨hc1len, hl⟩
        exact lt_of_lt_of_le hc2lt (not_lt.mp this)
    have hlen' : (swapL l n c2).length = l.length := length_swapL l n c2
    have hfst : scAt score (swapL l n c2) n = scAt score l c2 :=
      scAt_swapL_fst score l n c2 hnlen hc2len hnc2
    have hsnd : scAt score (swapL l n c2) c2 = scAt score l n :=
      scAt_swapL_snd score l n c2 hnlen hc2len
    have hoth : ∀ k, k ≠ n → k ≠ c2 → scAt score (swapL l n c2) k = scAt score l k :=
      fun k h1 h2 => scAt_swapL_other score l n c2 k h1 h2
    apply ih
    · -- parent links except those out of c2
      intro i hi hi0 hpi
      rw [hlen'] at hi
      by_cases hin : i = n
      · -- i = n: its parent is untouched, n now holds the old c2 value
        rcases Nat.eq_zero_or_pos n with hn0 | hn0
        · omega
        have hpn1 : par n ≠ n := Nat.ne_of_lt (par_lt hn0)
        have hpn2 : par n ≠ c2 := by
          have := par_lt hn0
          omega
        rw [hin, hoth (par n) hpn1 hpn2, hfst]
        exact hpar c2 hc2len (by omega) hparc2 hn0
      · by_cases hic2 : i = c2
        · -- the link into c2 itself: new value at c2 is old n, parent is old c2
          rw [hic2, hparc2, hfst, hsnd]
          exact le_of_lt hlt2
        · by_cases hic1 : i = c1
          · -- the link into c1: parent slot n now holds old c2
            rw [hic1, hparc1, hfst, hoth c1 hnc1.symm hc1c2]
            exact le_of_lt hlt21
          · -- untouched link: i is not n, c1, c2, and par i is not n (else i ∈ {c1, c2}), not c2
            have hpin : par i ≠ n := by
              intro hpin
              rcases (par_eq_iff hi0).mp hpin with h | h <;> omega
            have hpic2 : par i ≠ c2 := by
              intro hpic2
              have := par_lt hi0
              omega
            rw [hoth (par i) hpin hpic2, hoth i hin hic2]
            exact hex i hi hi0 hpin
    · -- parent of c2 (that is n, holding old c2) bounds children of c2
      intro i hi hi0 hpi hc20
      rw [hlen'] at hi
      have hic2 : i ≠ c2 := by
        have := par_lt hi0
        omega
      have hin : i ≠ n := by
        have := par_lt hi0
        omega
      rw [hparc2, hfst, hoth i hin hic2]
      have : scAt score l c2 ≤ scAt score l i := by
        have h2 : par i ≠ n := by
          rw [hpi]; omega
        have := hex i hi hi0 (by rw [hpi]; omega)
        rw [hpi] at this
        exact this
      exact this
  | case2 l n hc2 hc ih =>
    -- swap with the left child c1 = 2n+1
    rw [sinkDown, dif_neg hc2, dif_pos hc]
    intro hex hpar
    rcases hc with ⟨hc1len, hc1lt⟩
    set c2 := (n + 1) * 2 with hc2def
    set c1 := (n + 1) * 2 - 1 with hc1def
    have hnlen : n < l.length := by omega
    have hnc1 : n ≠ c1 := by omega
    have hc1c2 : c1 ≠ c2 := by omega
    have hparc2 : par c2 = n := by unfold par; omega
    have hparc1 : par c1 = n := by unfold par; omega
    -- if c2 exists it scores at least c1 (otherwise the first branch fired)
    have hc2ge : c2 < l.length → scAt score l c1 ≤ scAt score l c2 := by
      intro hc2len
      have hthr : sinkThreshold score l n = scAt score l c1 := by
        unfold sinkThreshold
        rw [if_pos ⟨hc1len, hc1lt⟩]
      have : ¬ scAt score l c2 < sinkThreshold score l n := fun hl => hc2 ⟨hc2len, hl⟩
      rw [hthr] at this
      exact not_lt.mp this
    have hlen' : (swapL l n c1).length = l.length := length_swapL l n c1
    have hfst : scAt score (swapL l n c1) n = scAt score l c1 :=
      scAt_swapL_fst score l n c1 hnlen hc1len hnc1
    have hsnd : scAt score (swapL l n c1) c1 = scAt score l n :=
      scAt_swapL_snd score l n c1 hnlen hc1len
    have hoth : ∀ k, k ≠ n → k ≠ c1 → scAt score (swapL l n c1) k = scAt score l k :=
      fun k h1 h2 => scAt_swapL_other score l n c1 k h1 h2
    apply ih
    · intro i hi hi0 hpi
      rw [hlen'] at hi
      by_cases hin : i = n
      · rcases Nat.eq_zero_or_pos n with hn0 | hn0
        · omega
        have hpn1 : par n ≠ n := Nat.ne_of_lt (par_lt hn0)
        have hpn2 : par n ≠ c1 := by
          have := par_lt hn0
          omega
        rw [hin, hoth (par n) hpn1 hpn2, hfst]
        exact hpar c1 hc1len (by omega) hparc1 hn0
      · by_cases hic1 : i = c1
        · rw [hic1, hparc1, hfst, hsnd]
          exact le_of_lt hc1lt
        · by_cases hic2 : i = c2
          · rw [hic2, hparc2, hfst, hoth c2 (by omega) (by omega)]
            exact hc2ge (by omega)
          · have hpin : par i ≠ n := by
              intro hpin
              rcases (par_eq_iff hi0).mp hpin with h | h <;> omega
            have hpic1 : par i ≠ c1 := by
              intro hpic1
              have := par_lt hi0
              omega
            rw [hoth (par i) hpin hpic1, hoth i hin hic1]
            exact hex i hi hi0 hpin
    · intro i hi hi0 hpi hc10
      rw [hlen'] at hi
      have hic1 : i ≠ c1 := by
        have := par_lt hi0
        omega
      have hin : i ≠ n := by
        have := par_lt hi0
        omega
      rw [hparc1, hfst, hoth i hin hic1]
      have := hex i hi hi0 (by rw [hpi]; omega)
      rw [hpi] at this
      exact this
  | case3 l n hc2 hc1 =>
    rw [sinkDown, dif_neg hc2, dif_neg hc1]
    intro hex hpar
    intro i hi hi0
    by_cases hpi : par i = n
    · -- i is a child of n; the branch conditions failed, so n bounds it
      rcases (par_eq_iff hi0).mp hpi with h | h
      · -- left child
        have : ¬ scAt score l ((n + 1) * 2 - 1) < scAt score l n := by
          intro hl
          exact hc1 ⟨by omega, hl⟩
        rw [hpi]
        have hieq : i = (n + 1) * 2 - 1 := by omega
        rw [hieq]
        exact not_lt.mp this
      · -- right child
        have hc1i : (n + 1) * 2 - 1 < l.length := by omega
        have hnb : ¬ scAt score l ((n + 1) * 2) < sinkThreshold score l n := by
          intro hl
          exact hc2 ⟨by omega, hl⟩
        have hthr : scAt score l n ≤ sinkThreshold score l n ∨
            sinkThreshold score l n = scAt score l ((n + 1) * 2 - 1) ∧
              scAt score l ((n + 1) * 2 - 1) < scAt score l n := by
          unfold sinkThreshold
          by_cases hb : (n + 1) * 2 - 1 < l.length ∧
              scAt score l ((n + 1) * 2 - 1) < scAt score l n
          · rw [if_pos hb]
            exact Or.inr ⟨rfl, hb.2⟩
          · rw [if_neg hb]
            exact Or.inl le_rfl
        -- the branch conditions failing means the left child (if present) is ≥ n,
        -- so the threshold is n's own score
        have hthr2 : sinkThreshold score l n = scAt score l n := by
          unfold sinkThreshold
          have : ¬ ((n + 1) * 2 - 1 < l.length ∧
              scAt score l ((n + 1) * 2 - 1) < scAt score l n) := hc1
          rw [if_neg this]
        rw [hthr2] at hnb
        rw [hpi]
        have hieq : i = (n + 1) * 2 := by omega
        rw [hieq]
        exact not_lt.mp hnb
    · exact hex i hi hi0 hpi

theorem scAt_dropLast (score : α → ℤ) (l : List α) (i : Nat) (h : i < l.length - 1) :
    scAt score l.dropLast i = scAt score l i := by
  have h1 : i < l.dropLast.length := by simpa using h
  have h2 : i < l.length := by omega
  rw [scAt_lt_length score l.dropLast i h1, scAt_lt_length score l i h2,
    List.getElem_dropLast l i h1]

theorem pop_heapProp (score : α → ℤ) (l : List α) (h : heapProp score l) :
    heapProp score (pop score l).2 := by
  rcases l with _ | ⟨x, xs⟩
  · intro j hj hj0
    simp [pop] at hj
  rcases xs with _ | ⟨y, ys⟩
  · intro j hj hj0
    simp [pop] at hj
  rw [pop]
  apply sinkDown_heapProp
  · intro j hj hj0 hpj
    have hpj0 : 0 < par j := Nat.pos_of_ne_zero hpj
    have hlen : ((x :: y :: ys).dropLast.set 0 ((y :: ys).getLast (by simp))).length
        = (x :: y :: ys).length - 1 := by simp
    rw [hlen] at hj
    have hpjlt : par j < j := par_lt hj0
    have hsj : scAt score ((x :: y :: ys).dropLast.set 0 ((y :: ys).getLast (by simp))) j
        = scAt score (x :: y :: ys) j := by
      rw [scAt_set_ne _ _ 0 j _ (by omega), scAt_dropLast _ _ j (by simpa using hj)]
    have hspj : scAt score ((x :: y :: ys).dropLast.set 0 ((y :: ys).getLast (by simp))) (par j)
        = scAt score (x :: y :: ys) (par j) := by
      rw [scAt_set_ne _ _ 0 (par j) _ (by omega), scAt_dropLast _ _ (par j) (by omega)]
    rw [hsj, hspj]
    exact h j (by simp at hj ⊢; omega) hj0
  · intro j hj hj0 hpj h0
    omega

/-- In a heap the root has minimal score. -/
theorem heapProp_root_min (score : α → ℤ) (l : List α) (h : heapProp score l) :
    ∀ j, j < l.length → scAt score l 0 ≤ scAt score l j := by
  intro j
  induction j using Nat.strong_induction_on with
  | _ j ih =>
    intro hj
    rcases Nat.eq_zero_or_pos j with h0 | h0
    · rw [h0]
    · have hpj : par j < j := par_lt h0
      exact le_trans (ih (par j) hpj (lt_trans hpj hj)) (h j hj h0)

/-- In a heap `peek` (that is `content[0]`) returns an entry of minimal score. -/
theorem heapProp_head_min (score : α → ℤ) (l : List α) (x e : α)
    (h : heapProp score l) (hx : l.head? = some x) (he : e ∈ l) :
    score x ≤ score e := by
  rcases l with _ | ⟨a, as⟩
  · simp at hx
  have hax : a = x := by simpa using hx
  rcases List.mem_iff_get.mp he with ⟨⟨i, hi⟩, hget⟩
  have hsx : scAt score (a :: as) 0 = score x := by
    rw [scAt_lt_length score (a :: as) 0 (by simp)]
    simp [hax]
  have hse : scAt score (a :: as) i = score e := by
    rw [scAt_lt_length score (a :: as) i hi]
    rw [show (a :: as)[i] = (a :: as).get ⟨i, hi⟩ from by simp, hget]
  rw [← hsx, ← hse]
  exact heapProp_root_min score (a :: as) h i hi

theorem pop_fst (score : α → ℤ) (l : List α) : (pop score l).1 = l.head? := by
  rcases l with _ | ⟨x, xs⟩
  · rfl
  rcases xs with _ | ⟨y, ys⟩ <;> rfl

/-- A heap operation: `push` an element or `pop` the root. -/
inductive HeapOp (α : Type) : Type
  | push (e : α) : HeapOp α
  | pop : HeapOp α

/-- Run one heap operation on the backing array. -/
def execOp (score : α → ℤ) (l : List α) : HeapOp α → List α
  | HeapOp.push e => push score l e
  | HeapOp.pop => (pop score l).2

/-- Run a sequence of heap operations starting from the empty heap. -/
def execOps (score : α → ℤ) (ops : List (HeapOp α)) : List α :=
  ops.foldl (execOp score) []

theorem execOp_heapProp (score : α → ℤ) (l : List α) (op : HeapOp α)
    (h : heapProp score l) : heapProp score (execOp score l op) := by
  cases op with
  | push e => exact push_heapProp score l e h
  | pop => exact pop_heapProp score l h

theorem foldl_execOp_heapProp (score : α → ℤ) (ops : List (HeapOp α)) :
    ∀ l, heapProp score l → heapProp score (ops.foldl (execOp score) l) := by
  induction ops with
  | nil => intro l h; exact h
  | cons op ops ih =>
    intro l h
    exact ih _ (execOp_heapProp score l op h)

theorem execOps_heapProp (score : α → ℤ) (ops : List (HeapOp α)) :
    heapProp score (execOps score ops) := by
  apply foldl_execOp_heapProp
  intro j hj hj0
  simp at hj

end BinaryHeap

/-! ### The tree builder

Mirror of `buildTree` (kdTree.js lines 47-70) over the windowed view of the
point buffer: a window is the list of its points, `pos` is the absolute index
of the window's first point.  Besides the built tree, the embedding returns
the final arrangement of the window (the in-place sorts reorder the backing
buffer; the sub-window of a node's median slot is never touched again, so the
final arrangement is left-final ++ median ++ right-final). -/

def buildTree (eleSize : Nat) (pts : List Point) (depth : Nat) (pos : Nat) :
    Node × List Point :=
  if h0 : pts.length = 0 then (Node.nil, pts)
  else if h1 : pts.length = 1 then
    (Node.node (pts.getD 0 []) depth pos Node.nil Node.nil, pts)
  else
    let dim := depth % eleSize
    let sorted := quickSortIP dim pts
    let median := pts.length / 2
    let lres := buildTree eleSize (sorted.take median) (depth + 1) pos
    let rres := buildTree eleSize (sorted.drop (median + 1)) (depth + 1) (pos + median + 1)
    (Node.node (sorted.getD median []) depth (median + pos) lres.1 rres.1,
     lres.2 ++ sorted.getD median [] :: rres.2)
termination_by pts.length
decreasing_by
  · rw [List.length_take, quickSortIP_length, min_eq_left (by omega)]
    omega
  · rw [List.length_drop, quickSortIP_length]
    omega

/-- The axis-separation invariant of the built tree (spec section 3): at every
internal node with axis `a = depth mod elementSize`, all points of the left
subtree have coordinate `a` at most the node's, and all points of the right
subtree at least the node's. -/
def AxisSep (eleSize : Nat) : Node → Prop
  | Node.nil => True
  | Node.node obj depth _ l r =>
      (∀ p ∈ treePoints l, p.getD (depth % eleSize) 0 ≤ obj.getD (depth % eleSize) 0) ∧
      (∀ p ∈ treePoints r, obj.getD (depth % eleSize) 0 ≤ p.getD (depth % eleSize) 0) ∧
      AxisSep eleSize l ∧ AxisSep eleSize r

/-- Combined specification of the builder, by strong induction on the window
size: the tree holds exactly the window's points; the final arrangement has
the window's length; the axis-separation invariant holds; and every node's
stored index is its position in the final (post-sort) arrangement. -/
theorem buildTree_spec (eleSize : Nat) :
    ∀ (n : Nat) (pts : List Point) (depth pos : Nat), pts.length = n →
    treePoints (buildTree eleSize pts depth pos).1 = (pts : Multiset Point) ∧
    (buildTree eleSize pts depth pos).2.length = pts.length ∧
    AxisSep eleSize (buildTree eleSize pts depth pos).1 ∧
    (∀ pr ∈ nodeList (buildTree eleSize pts depth pos).1,
      pos ≤ pr.2 ∧ pr.2 - pos < pts.length ∧
      (buildTree eleSize pts depth pos).2.getD (pr.2 - pos) [] = pr.1) := by
  intro n
  induction n using Nat.strong_induction_on with
  | _ n ih =>
    intro pts depth pos hlen
    by_cases h0 : pts.length = 0
    · have hpts : pts = [] := List.length_eq_zero.mp h0
      subst hpts
      rw [show buildTree eleSize [] depth pos = (Node.nil, []) from by rw [buildTree]; rfl]
      refine ⟨by simp [treePoints], by simp, by simp [AxisSep], ?_⟩
      intro pr hpr
      simp [nodeList] at hpr
    · by_cases h1 : pts.length = 1
      · rcases List.length_eq_one.mp h1 with ⟨p, hp⟩
        subst hp
        rw [show buildTree eleSize [p] depth pos
            = (Node.node p depth pos Node.nil Node.nil, [p]) from by
          rw [buildTree]; rfl]
        refine ⟨by simp [treePoints], by simp, ?_, ?_⟩
        · exact ⟨by simp [treePoints], by simp [treePoints], trivial, trivial⟩
        · intro pr hpr
          simp only [nodeList, List.append_nil, List.mem_singleton] at hpr
          subst hpr
          simp
      · -- main case: at least two points
        have hunfold : buildTree eleSize pts depth pos =
            (Node.node ((quickSortIP (depth % eleSize) pts).getD (pts.length / 2) []) depth
              (pts.length / 2 + pos)
              (buildTree eleSize ((quickSortIP (depth % eleSize) pts).take (pts.length / 2))
                (depth + 1) pos).1
              (buildTree eleSize ((quickSortIP (depth % eleSize) pts).drop (pts.length / 2 + 1))
                (depth + 1) (pos + pts.length / 2 + 1)).1,
             (buildTree eleSize ((quickSortIP (depth % eleSize) pts).take (pts.length / 2))
                (depth + 1) pos).2
               ++ (quickSortIP (depth % eleSize) pts).getD (pts.length / 2) []
               :: (buildTree eleSize ((quickSortIP (depth % eleSize) pts).drop (pts.length / 2 + 1))
                (depth + 1) (pos + pts.length / 2 + 1)).2) := by
          rw [buildTree, dif_neg h0, dif_neg h1]
        set srt := quickSortIP (depth % eleSize) pts with hsrt
        set med := pts.length / 2 with hmed
        have hslen : srt.length = pts.length := quickSortIP_length _ _
        have h2 : 2 ≤ pts.length := by omega
        have hmlt : med < pts.length := by omega
        have hmeds : med < srt.length := by omega
        have htlen : (srt.take med).length = med := by
          rw [List.length_take, min_eq_left (by omega)]
        have hdlen : (srt.drop (med + 1)).length = pts.length - med - 1 := by
          rw [List.length_drop, hslen]
          omega
        set mobj := srt.getD med [] with hmobjd
        obtain ⟨l1, l2, l3, l4⟩ :=
          ih med (by omega) (srt.take med) (depth + 1) pos htlen
        obtain ⟨r1, r2, r3, r4⟩ :=
          ih (pts.length - med - 1) (by omega) (srt.drop (med + 1)) (depth + 1)
            (pos + med + 1) hdlen
        have hmobj : mobj = srt[med] := List.getD_eq_getElem srt [] hmeds
        have hsplit : srt.take med ++ mobj :: srt.drop (med + 1) = srt := by
          have h := List.take_append_drop med srt
          rw [List.drop_eq_getElem_cons hmeds] at h
          rw [← hmobj] at h
          exact h
        have hpw : List.Pairwise
            (fun a b => a.getD (depth % eleSize) 0 ≤ b.getD (depth % eleSize) 0) srt := by
          rw [hsrt]
          exact insSort_pairwise (fun p => p.getD (depth % eleSize) 0) pts
        rw [← hsplit] at hpw
        rcases List.pairwise_append.mp hpw with ⟨hpwA, hpwB, hAB⟩
        rcases List.pairwise_cons.mp hpwB with ⟨hmB, hpwBt⟩
        have hcoe : ((srt.take med ++ mobj :: srt.drop (med + 1) : List Point) : Multiset Point)
            = (pts : Multiset Point) := by
          rw [hsplit]
          exact Multiset.coe_eq_coe.mpr (quickSortIP_perm _ _)
        rw [hunfold]
        refine ⟨?_, ?_, ?_, ?_⟩
        · -- the tree holds exactly the window's points
          show treePoints (Node.node mobj depth (med + pos)
              (buildTree eleSize (srt.take med) (depth + 1) pos).1
              (buildTree eleSize (srt.drop (med + 1)) (depth + 1) (pos + med + 1)).1)
            = (pts : Multiset Point)
          rw [treePoints, l1, r1, ← hcoe]
          rw [show ((srt.take med ++ mobj :: srt.drop (med + 1) : List Point) : Multiset Point)
              = ((srt.take med : List Point) : Multiset Point)
                + (mobj ::ₘ ((srt.drop (med + 1) : List Point) : Multiset Point)) from by simp]
          rw [← Multiset.singleton_add, ← Multiset.singleton_add, ← add_assoc,
            add_comm ({mobj} : Multiset Point) _, add_assoc]
        · -- the final arrangement has the window's length
          show ((buildTree eleSize (srt.take med) (depth + 1) pos).2
              ++ mobj :: (buildTree eleSize (srt.drop (med + 1)) (depth + 1) (pos + med + 1)).2).length
            = pts.length
          rw [List.length_append, List.length_cons, l2, r2, htlen, hdlen]
          omega
        · -- the separation invariant
          refine ⟨?_, ?_, l3, r3⟩
          · intro p hp
            rw [l1] at hp
            exact hAB p (Multiset.mem_coe.mp hp) mobj (List.mem_cons_self mobj _)
          · intro p hp
            rw [r1] at hp
            exact hmB p (Multiset.mem_coe.mp hp)
        · -- node indices point into the final arrangement
          intro pr hpr
          rw [show nodeList (Node.node mobj depth (med + pos)
              (buildTree eleSize (srt.take med) (depth + 1) pos).1
              (buildTree eleSize (srt.drop (med + 1)) (depth + 1) (pos + med + 1)).1)
            = (mobj, med + pos)
              :: (nodeList (buildTree eleSize (srt.take med) (depth + 1) pos).1
                ++ nodeList (buildTree eleSize (srt.drop (med + 1)) (depth + 1) (pos + med + 1)).1)
            from rfl] at hpr
          have hLlen : (buildTree eleSize (srt.take med) (depth + 1) pos).2.length = med := by
            rw [l2, htlen]
          rcases List.mem_cons.mp hpr with hroot | hrest
          · subst hroot
            refine ⟨by omega, by simp; omega, ?_⟩
            have : med + pos - pos = med := by omega
            rw [this, List.getD_append_right _ _ _ _ (by rw [hLlen]), hLlen]
            simp
          · rcases List.mem_append.mp hrest with hL | hR
            · obtain ⟨ha, hb, hc⟩ := l4 pr hL
              rw [htlen] at hb
              refine ⟨ha, by omega, ?_⟩
              rw [List.getD_append _ _ _ _ (by rw [hLlen]; omega)]
              exact hc
            · obtain ⟨ha, hb, hc⟩ := r4 pr hR
              rw [hdlen] at hb
              refine ⟨by omega, by omega, ?_⟩
              rw [List.getD_append_right _ _ _ _ (by rw [hLlen]; omega), hLlen]
              rw [show pr.2 - pos - med = pr.2 - (pos + med + 1) + 1 from by omega]
              rw [List.getD_cons_succ]
              exact hc

/-! ### The flat-buffer view of the builder

`kdTree` receives the raw typed array and never validates its length
(kdTree.js line 36: there is no check before `this.root = buildTree(...)`).
To reason about buffers whose length is not a multiple of `eleSize`, the
builder is also embedded directly over the flat coordinate list, mirroring
the JavaScript semantics of `points.length / eleSize` (real division:
`plength === 0` iff the buffer is empty, `plength === 1` iff the length is
exactly `eleSize`), `Math.floor(plength / 2)` and the clamping `subarray`.
`eleSize = 0` (division by zero in the source, producing `Infinity`) is
outside the modelled domain and is mapped to the empty tree. -/

/-- Cut a flat buffer into records of `e` coordinates (a trailing partial
record is kept, as a typed-array `subarray` would clamp it). -/
def chunkE : Nat → List ℤ → List (List ℤ)
  | _, [] => []
  | 0, _ :: _ => []
  | e + 1, x :: xs => (x :: xs).take (e + 1) :: chunkE (e + 1) ((x :: xs).drop (e + 1))
termination_by _ l => l.length
decreasing_by
  simp
  omega

theorem chunkE_join : ∀ (e : Nat) (l : List ℤ), 0 < e → (chunkE e l).flatten = l := by
  intro e l
  induction e, l using chunkE.induct with
  | case1 e =>
    intro
    rw [chunkE]
    rfl
  | case2 x xs =>
    intro h
    omega
  | case3 e x xs ih =>
    intro
    rw [chunkE, List.flatten_cons, ih (by omega)]
    exact List.take_append_drop (e + 1) (x :: xs)

/-- Modelled from the spec: `quickSortIP` on the flat buffer — sort the
`eleSize`-strided records by coordinate `dim` (the external typed-array
quicksort is not under `src/`; the spec treats it as a total-order sort of
the window's records along the axis). -/
def quickSortIPFlat (eleSize dim : Nat) (pts : List ℤ) : List ℤ :=
  (insSort (fun c => c.getD dim 0) (chunkE eleSize pts)).flatten

theorem quickSortIPFlat_length (eleSize dim : Nat) (pts : List ℤ) (he : 0 < eleSize) :
    (quickSortIPFlat eleSize dim pts).length = pts.length := by
  unfold quickSortIPFlat
  rw [List.length_join]
  rw [((insSort_perm (fun c => c.getD dim 0) (chunkE eleSize pts)).map List.length).sum_eq]
  rw [← List.length_join, chunkE_join eleSize pts he]

/-- Mirror of `buildTree` over the flat buffer (kdTree.js lines 47-70), with
JavaScript's real-division semantics for `plength` and clamping `subarray`
semantics for the windows.  Only the tree is returned. -/
def buildTreeFlat (eleSize : Nat) (pts : List ℤ) (depth : Nat) (pos : Nat) : Node :=
  if he : eleSize = 0 then Node.nil
  else if h0 : pts.length = 0 then Node.nil
  else if h1 : pts.length = eleSize then
    Node.node (pts.take eleSize) depth pos Node.nil Node.nil
  else
    let sorted := quickSortIPFlat eleSize (depth % eleSize) pts
    let median := pts.length / (2 * eleSize)
    Node.node ((sorted.drop (median * eleSize)).take eleSize) depth (median + pos)
      (buildTreeFlat eleSize (sorted.take (median * eleSize)) (depth + 1) pos)
      (buildTreeFlat eleSize (sorted.drop ((median + 1) * eleSize)) (depth + 1)
        (pos + median + 1))
termination_by pts.length
decreasing_by
  · rw [List.length_take, quickSortIPFlat_length _ _ _ (by omega)]
    have hme : pts.length / (2 * eleSize) * eleSize < pts.length := by
      have h1 : pts.length / (2 * eleSize) * (2 * eleSize) ≤ pts.length :=
        Nat.div_mul_le_self _ _
      have h2 : 0 < pts.length := by omega
      nlinarith [Nat.zero_le (pts.length / (2 * eleSize))]
    exact lt_of_le_of_lt inf_le_left hme
  · rw [List.length_drop, quickSortIPFlat_length _ _ _ (by omega)]
    have hA : 0 < (pts.length / (2 * eleSize) + 1) * eleSize :=
      Nat.mul_pos (Nat.succ_pos _) (by omega)
    exact Nat.sub_lt (by omega) hA

/-! ### The nearest-neighbour search

Mirror of `kdTree.nearest` and its inner `nearestSearch` (kdTree.js lines
77-168).  JavaScript runtime failures on the embedded paths are property
accesses on `null`/`undefined` (the unguarded `nearestSearch(self.root)` on
an empty tree, `bestNodes.peek()[1]` on an empty heap, and
`bestNodes.content[i][0]` past the end of the backing array); they surface
as `JsErr.typeError`. -/

/-- Exception kinds of the module as named by the specification's error
taxonomy: `typeError` is a JavaScript runtime `TypeError` (property access on
`null`/`undefined`); `nodeNotFound` is the explicit `"Node not found."`
throw of `BinaryHeap.remove` (kdTree.js line 225, unused by the query path);
`invalidInput` is the specification's rejection-of-malformed-input error,
which no code path of the module produces. -/
inductive JsErr : Type
  | typeError : JsErr
  | nodeNotFound : JsErr
  | invalidInput : JsErr
  deriving DecidableEq

/-- A heap entry of the search: `[node, distance]`, where the node reference
is `null` for the `maxDistance` placeholder entries. -/
abbrev Entry : Type := Option Node × ℤ

/-- The scoring function handed to the heap by `nearest`
(kdTree.js line 83): `-e[1]`. -/
def entScore (e : Entry) : ℤ := -e.2

/-- The probe point `linearPoint` (kdTree.js lines 102-108): equal to the
node's point except at the split axis, where it takes the query's value. -/
def probe (eleSize : Nat) (point obj : Point) (a : Nat) : Point :=
  (List.range eleSize).map (fun i => if i = a then point.getD i 0 else obj.getD i 0)

/-- The admission test `bestNodes.size() < maxNodes || d < bestNodes.peek()[1]`
(kdTree.js lines 114, 135, 140): short-circuiting, so the peek — which
crashes on an empty heap — is only evaluated when the heap is full. -/
def admitCheck (maxNodes : Nat) (bestNodes : List Entry) (d : ℤ) : Except JsErr Bool :=
  if bestNodes.length < maxNodes then Except.ok true
  else
    match bestNodes.head? with
    | none => Except.error JsErr.typeError
    | some e => Except.ok (decide (d < e.2))

/-- Mirror of `saveNode` (kdTree.js lines 95-100): push the candidate, then
pop the worst entry if the heap has grown past `maxNodes`. -/
def saveNode (maxNodes : Nat) (bestNodes : List Entry) (nd : Node) (d : ℤ) : List Entry :=
  if maxNodes < (BinaryHeap.push entScore bestNodes (some nd, d)).length then
    (BinaryHeap.pop entScore (BinaryHeap.push entScore bestNodes (some nd, d))).2
  else BinaryHeap.push entScore bestNodes (some nd, d)

/-- Mirror of `nearestSearch` (kdTree.js lines 86-150). -/
def nearestSearch (eleSize : Nat) (metric : Point → Point → ℤ) (point : Point)
    (maxNodes : Nat) : Node → List Entry → Except JsErr (List Entry)
  | Node.nil, _ => Except.error JsErr.typeError
  | Node.node obj depth pos l r, bestNodes =>
    if l = Node.nil ∧ r = Node.nil then
      match admitCheck maxNodes bestNodes (metric point obj) with
      | Except.error er => Except.error er
      | Except.ok c =>
          Except.ok (if c then
            saveNode maxNodes bestNodes (Node.node obj depth pos l r) (metric point obj)
          else bestNodes)
    else
      match nearestSearch eleSize metric point maxNodes
          (if r = Node.nil then l else if l = Node.nil then r
           else if point.getD (depth % eleSize) 0 < obj.getD (depth % eleSize) 0 then l else r)
          bestNodes with
      | Except.error er => Except.error er
      | Except.ok best1 =>
        match admitCheck maxNodes best1 (metric point obj) with
        | Except.error er => Except.error er
        | Except.ok c =>
          match admitCheck maxNodes
              (if c then
                saveNode maxNodes best1 (Node.node obj depth pos l r) (metric point obj)
              else best1)
              |metric (probe eleSize point obj (depth % eleSize)) obj| with
          | Except.error er => Except.error er
          | Except.ok c2 =>
            if c2 then
              if (if (if r = Node.nil then l else if l = Node.nil then r
                      else if point.getD (depth % eleSize) 0 < obj.getD (depth % eleSize) 0
                      then l else r) = l then r else l) = Node.nil then
                Except.ok (if c then
                  saveNode maxNodes best1 (Node.node obj depth pos l r) (metric point obj)
                else best1)
              else
                nearestSearch eleSize metric point maxNodes
                  (if (if r = Node.nil then l else if l = Node.nil then r
                       else if point.getD (depth % eleSize) 0 < obj.getD (depth % eleSize) 0
                       then l else r) = l then r else l)
                  (if c then
                    saveNode maxNodes best1 (Node.node obj depth pos l r) (metric point obj)
                  else best1)
            else
              Except.ok (if c then
                saveNode maxNodes best1 (Node.node obj depth pos l r) (metric point obj)
              else best1)
termination_by T _ => tsize T
decreasing_by
  · split_ifs <;> simp [tsize] <;> omega
  · split_ifs <;> simp [tsize] <;> omega

/-- The `maxDistance` pre-seeding loop (kdTree.js lines 152-156): push
`maxNodes` placeholder entries `[null, maxDistance]`. -/
def seedHeap (maxNodes : Nat) (d : ℤ) : List Entry :=
  (List.range maxNodes).foldl (fun b _ => BinaryHeap.push entScore b (none, d)) []

/-- The result-extraction loop (kdTree.js lines 162-166): for `i` from `0` to
`maxNodes - 1`, read `bestNodes.content[i]` — a `TypeError` when `i` is past
the end of the backing array — and keep the entry when its node reference is
truthy (drops the `null` placeholders). -/
def extractGo : Nat → List Entry → Except JsErr (List (Node × ℤ))
  | 0, _ => Except.ok []
  | _ + 1, [] => Except.error JsErr.typeError
  | n + 1, e :: rest =>
    match extractGo n rest with
    | Except.error er => Except.error er
    | Except.ok res =>
      Except.ok (match e.1 with
        | some nd => (nd, e.2) :: res
        | none => res)

/-- Mirror of `kdTree.nearest` (kdTree.js lines 77-168): create the heap,
pre-seed it when `maxDistance` is truthy (`undefined` and `0` are falsy),
run `nearestSearch` on the root, and extract the results. -/
def nearest (eleSize : Nat) (metric : Point → Point → ℤ) (root : Node) (point : Point)
    (maxNodes : Nat) (maxDistance : Option ℤ) : Except JsErr (List (Node × ℤ)) :=
  match nearestSearch eleSize metric point maxNodes root
      (match maxDistance with
       | none => []
       | some d => if d = 0 then [] else seedHeap maxNodes d) with
  | Except.error er => Except.error er
  | Except.ok best1 => extractGo maxNodes best1

/-- The example metric of the module's documentation (kdTree.js line 17):
squared Euclidean distance over the first `n` coordinates. -/
def sqDist (n : Nat) (a b : Point) : ℤ :=
  ((List.range n).map (fun i => (a.getD i 0 - b.getD i 0) ^ 2)).sum

/-! ### k-smallest multisets

`IsKS k m best` characterises `best` as "the" multiset of the `k` smallest
elements of `m`: it is contained in `m`, has `min k |m|` elements, and every
kept element is at most every dropped element.  This characterisation is
unique, is satisfied by `take k` of a sorted enumeration, and is preserved
by the streaming admission rule of the search (keep if there is room or the
candidate beats the current worst, then evict the worst). -/

def IsKS (k : Nat) (m best : Multiset ℤ) : Prop :=
  best ≤ m ∧ Multiset.card best = min k (Multiset.card m) ∧
    ∀ x ∈ best, ∀ y ∈ m - best, x ≤ y

theorem IsKS_self (k : Nat) (m : Multiset ℤ) (h : Multiset.card m ≤ k) : IsKS k m m := by
  refine ⟨le_refl m, by omega, ?_⟩
  intro x hx y hy
  simp at hy

theorem IsKS_reject (k : Nat) (best : Multiset ℤ) (d : ℤ)
    (hcard : Multiset.card best = k) (hall : ∀ x ∈ best, x ≤ d) :
    IsKS k (d ::ₘ best) best := by
  refine ⟨Multiset.le_cons_self best d, ?_, ?_⟩
  · rw [Multiset.card_cons]
    omega
  · intro x hx y hy
    have : (d ::ₘ best) - best = {d} := by
      rw [← Multiset.singleton_add, add_comm]
      simp
    rw [this] at hy
    rw [Multiset.mem_singleton.mp hy]
    exact hall x hx

theorem IsKS_erase_top (k : Nat) (m : Multiset ℤ) (x : ℤ)
    (hcard : Multiset.card m = k + 1) (hx : x ∈ m) (htop : ∀ y ∈ m, y ≤ x) :
    IsKS k m (m.erase x) := by
  refine ⟨Multiset.erase_le x m, ?_, ?_⟩
  · rw [Multiset.card_erase_of_mem hx, hcard, Nat.min_eq_left (by omega)]
    rfl
  · intro a ha y hy
    have hme : m - m.erase x = {x} := by
      ext a
      rw [Multiset.count_sub]
      by_cases hax : a = x
      · subst hax
        rw [Multiset.count_erase_self, Multiset.count_singleton_self]
        have := Multiset.count_pos.mpr hx
        omega
      · rw [Multiset.count_erase_of_ne hax, Multiset.count_singleton, if_neg hax]
        omega
    rw [hme] at hy
    rw [Multiset.mem_singleton.mp hy]
    exact htop a (Multiset.mem_of_mem_erase ha)

theorem IsKS_prune (k : Nat) (best X : Multiset ℤ)
    (hcard : Multiset.card best = k)
    (hall : ∀ x ∈ X, ∀ y ∈ best, y ≤ x) :
    IsKS k (best + X) best := by
  refine ⟨Multiset.le_add_right best X, ?_, ?_⟩
  · rw [Multiset.card_add]
    omega
  · intro a ha y hy
    rw [show best + X - best = X from by rw [add_comm]; simp] at hy
    exact hall y hy a ha

/-- Two k-smallest multisets of the same multiset are equal. -/
theorem IsKS_unique (k : Nat) (m a b : Multiset ℤ) (ha : IsKS k m a) (hb : IsKS k m b) :
    a = b := by
  rcases ha with ⟨hale, hacard, hadown⟩
  rcases hb with ⟨hble, hbcard, hbdown⟩
  by_contra hne
  -- some value has different multiplicity; w.l.o.g. more copies in one of them
  have hcne : ∃ v, a.count v ≠ b.count v := by
    by_contra hall
    push_neg at hall
    exact hne (Multiset.ext.mpr hall)
  rcases hcne with ⟨v, hv⟩
  -- a fully symmetric sub-argument
  have key : ∀ (s t : Multiset ℤ), s ≤ m → t ≤ m →
      Multiset.card s = Multiset.card t →
      (∀ x ∈ s, ∀ y ∈ m - s, x ≤ y) → (∀ x ∈ t, ∀ y ∈ m - t, x ≤ y) →
      ∀ w, s.count w < t.count w → False := by
    intro s t hs ht hcard hsd htd w hw
    have hwt : w ∈ t := Multiset.count_pos.mp (by omega)
    have hwms : w ∈ m - s := by
      rw [← Multiset.count_pos, Multiset.count_sub]
      have : t.count w ≤ m.count w := Multiset.count_le_of_le w ht
      omega
    have hex : ∃ u, s.count u > t.count u := by
      by_contra hall
      push_neg at hall
      have hst : s ≤ t := Multiset.le_iff_count.mpr hall
      have := Multiset.eq_of_le_of_card_le hst (by omega)
      rw [this] at hw
      omega
    rcases hex with ⟨u, hu⟩
    have hus : u ∈ s := Multiset.count_pos.mp (by omega)
    have humt : u ∈ m - t := by
      rw [← Multiset.count_pos, Multiset.count_sub]
      have : s.count u ≤ m.count u := Multiset.count_le_of_le u hs
      omega
    have h1 : u ≤ w := hsd u hus w hwms
    have h2 : w ≤ u := htd w hwt u humt
    have : u = w := le_antisymm h1 h2
    subst this
    omega
  rcases Nat.lt_or_ge (a.count v) (b.count v) with hlt | hge
  · exact key a b hale hble (by omega) hadown hbdown v hlt
  · have hlt : b.count v < a.count v := by omega
    exact key b a hble hale (by omega) hbdown hadown v hlt

/-- Composing k-smallest selections: a k-smallest of (k-smallest of `m`) plus
`X` is a k-smallest of `m + X`. -/
theorem IsKS_trans (k : Nat) (m X b1 b2 : Multiset ℤ)
    (h1 : IsKS k m b1) (h2 : IsKS k (b1 + X) b2) : IsKS k (m + X) b2 := by
  rcases h1 with ⟨h1le, h1card, h1down⟩
  rcases h2 with ⟨h2le, h2card, h2down⟩
  refine ⟨le_trans h2le (add_le_add_right h1le X), ?_, ?_⟩
  · rw [Multiset.card_add] at h2card ⊢
    omega
  · intro x hx y hy
    -- (m + X) - b2 = (m - b1) + ((b1 + X) - b2)
    have hdecomp : (m + X) - b2 = (m - b1) + ((b1 + X) - b2) := by
      ext w
      rw [Multiset.count_sub, Multiset.count_add, Multiset.count_add, Multiset.count_sub,
        Multiset.count_sub, Multiset.count_add]
      have hc1 : b1.count w ≤ m.count w := Multiset.count_le_of_le w h1le
      have hc2 : b2.count w ≤ b1.count w + X.count w := by
        have := Multiset.count_le_of_le w h2le
        rw [Multiset.count_add] at this
        exact this
      omega
    rw [hdecomp] at hy
    rcases Multiset.mem_add.mp hy with hy1 | hy2
    · -- y was dropped already by the first selection
      rcases Nat.lt_or_ge (Multiset.card m) k with hmk | hmk
      · -- then b1 = m and nothing was dropped
        have : b1 = m := by
          apply Multiset.eq_of_le_of_card_le h1le
          omega
        rw [this] at hy1
        simp at hy1
      · -- b1 has exactly k elements, all ≤ y
        have hcard1 : Multiset.card b1 = k := by omega
        by_contra hxy
        push_neg at hxy
        -- x ∈ b2 with x > y ≥ every element of b1, so x is not in b1,
        -- hence some element of b1 is missing from b2
        have hxnb1 : x ∉ b1 := by
          intro hxb1
          exact absurd (h1down x hxb1 y hy1) (not_le.mpr hxy)
        have hb2card : Multiset.card b2 = k := by
          rw [Multiset.card_add] at h2card
          omega
        have hex : ∃ u, b2.count u < b1.count u := by
          by_contra hall
          push_neg at hall
          have hle : b1 ≤ b2 := Multiset.le_iff_count.mpr hall
          have heq : b1 = b2 := Multiset.eq_of_le_of_card_le hle (by omega)
          rw [← heq] at hx
          exact hxnb1 hx
        rcases hex with ⟨u, hu⟩
        have hub1 : u ∈ b1 := Multiset.count_pos.mp (by omega)
        have humb2 : u ∈ (b1 + X) - b2 := by
          rw [← Multiset.count_pos, Multiset.count_sub, Multiset.count_add]
          omega
        have hxu : x ≤ u := h2down x hx u humb2
        have huy : u ≤ y := h1down u hub1 y hy1
        exact absurd (le_trans hxu huy) (not_le.mpr hxy)
    · exact h2down x hx y hy2

/-- The brute-force reference: the multiset of the `k` smallest values of a
list of distances — sort ascending and take the first `k`. -/
def kSmallestDists (k : Nat) (l : List ℤ) : Multiset ℤ :=
  (((insSort (fun x => x) l).take k : List ℤ) : Multiset ℤ)

theorem IsKS_sorted_take (k : Nat) (l : List ℤ) :
    IsKS k (l : Multiset ℤ) (kSmallestDists k l) := by
  have hperm : ((insSort (fun x => x) l : List ℤ) : Multiset ℤ) = (l : Multiset ℤ) :=
    Multiset.coe_eq_coe.mpr (insSort_perm _ l)
  have hsplit : (insSort (fun x => x) l).take k ++ (insSort (fun x => x) l).drop k
      = insSort (fun x => x) l := List.take_append_drop k _
  refine ⟨?_, ?_, ?_⟩
  · rw [← hperm]
    exact Multiset.coe_le.mpr (List.take_sublist k _).subperm
  · unfold kSmallestDists
    rw [Multiset.coe_card, Multiset.coe_card, List.length_take, insSort_length]
  · intro x hx y hy
    have hcancel : ∀ (X Y : Multiset ℤ), (Y + X) - X = Y := fun X Y => by simp
    have hq : (l : Multiset ℤ) = kSmallestDists k l
        + (((insSort (fun x => x) l).drop k : List ℤ) : Multiset ℤ) := by
      conv_lhs => rw [← hperm, ← hsplit]
      rfl
    have hsub : (l : Multiset ℤ) - kSmallestDists k l
        = (((insSort (fun x => x) l).drop k : List ℤ) : Multiset ℤ) := by
      rw [hq, add_comm, hcancel]
    rw [hsub] at hy
    have hpw := insSort_pairwise (fun x => x) l
    rw [← hsplit] at hpw
    rcases List.pairwise_append.mp hpw with ⟨_, _, hAB⟩
    exact hAB x (Multiset.mem_coe.mp hx) y (Multiset.mem_coe.mp hy)

/-- Multiset of the distances stored in a heap state. -/
def distsM (l : List Entry) : Multiset ℤ :=
  Multiset.map (fun e => e.2) (l : Multiset Entry)

/-- All heap entries reference a real node (no `null` placeholders). -/
def AllReal (l : List Entry) : Prop := ∀ e ∈ l, e.1 ≠ none

/-- All distances of the tree's points from the query. -/
def treeDists (metric : Point → Point → ℤ) (q : Point) (T : Node) : Multiset ℤ :=
  Multiset.map (fun p => metric q p) (treePoints T)

theorem distsM_card (l : List Entry) : Multiset.card (distsM l) = l.length := by
  unfold distsM
  rw [Multiset.card_map, Multiset.coe_card]

theorem distsM_push (l : List Entry) (e : Entry) :
    distsM (BinaryHeap.push entScore l e) = e.2 ::ₘ distsM l := by
  unfold distsM
  rw [BinaryHeap.push_multiset, Multiset.map_cons]

theorem length_pop (score : α → ℤ) (x : α) (xs : List α) :
    (BinaryHeap.pop score (x :: xs)).2.length = xs.length := by
  have := congrArg Multiset.card (BinaryHeap.pop_multiset score x xs)
  rw [Multiset.coe_card, Multiset.coe_card] at this
  exact this

theorem mem_distsM (l : List Entry) (y : ℤ) :
    y ∈ distsM l ↔ ∃ e ∈ l, e.2 = y := by
  unfold distsM
  rw [Multiset.mem_map]
  constructor
  · rintro ⟨e, he, hey⟩
    exact ⟨e, Multiset.mem_coe.mp he, hey⟩
  · rintro ⟨e, he, hey⟩
    exact ⟨e, Multiset.mem_coe.mpr he, hey⟩

theorem heap_all_le_head (l : List Entry) (e0 : Entry)
    (hp : BinaryHeap.heapProp entScore l) (hh : l.head? = some e0) :
    ∀ e ∈ l, e.2 ≤ e0.2 := by
  intro e he
  have := BinaryHeap.heapProp_head_min entScore l e0 e hp hh he
  unfold entScore at this
  omega

/-- The combined admission step of the search (the guard at kdTree.js lines
114/135 followed by `saveNode`): under the heap invariants it never fails,
keeps the invariants, and realises the streaming k-smallest selection on the
stored distances. -/
theorem admit_step (maxNodes : Nat) (best : List Entry) (nd : Node) (d : ℤ)
    (hk : 1 ≤ maxNodes) (hlen : best.length ≤ maxNodes)
    (hp : BinaryHeap.heapProp entScore best) (hr : AllReal best) :
    ∃ c best2, admitCheck maxNodes best d = Except.ok c ∧
      (if c then saveNode maxNodes best nd d else best) = best2 ∧
      BinaryHeap.heapProp entScore best2 ∧ AllReal best2 ∧
      best2.length = min maxNodes (best.length + 1) ∧
      IsKS maxNodes (distsM best + {d}) (distsM best2) := by
  by_cases hl : best.length < maxNodes
  · -- room in the heap: admit unconditionally, no eviction
    refine ⟨true, BinaryHeap.push entScore best (some nd, d), ?_, ?_, ?_, ?_, ?_, ?_⟩
    · unfold admitCheck
      rw [if_pos hl]
    · rw [if_pos rfl]
      unfold saveNode
      rw [if_neg (by rw [BinaryHeap.length_push]; omega)]
    · exact BinaryHeap.push_heapProp entScore best _ hp
    · intro e he
      rcases BinaryHeap.mem_push entScore best _ e he with rfl | hmem
      · simp
      · exact hr e hmem
    · rw [BinaryHeap.length_push]
      omega
    · rw [distsM_push]
      rw [BinaryHeap.add_singleton]
      apply IsKS_self
      rw [Multiset.card_cons, distsM_card]
      omega
  · -- heap full: maxNodes = best.length ≥ 1, peek the worst entry
    have hfull : best.length = maxNodes := by omega
    rcases best with _ | ⟨e0, rest⟩
    · simp at hfull
      omega
    have hh : (e0 :: rest).head? = some e0 := rfl
    have hallle : ∀ e ∈ e0 :: rest, e.2 ≤ e0.2 := heap_all_le_head _ e0 hp hh
    have hcheck : admitCheck maxNodes (e0 :: rest) d = Except.ok (decide (d < e0.2)) := by
      unfold admitCheck
      rw [if_neg hl]
      rfl
    by_cases hd : d < e0.2
    · -- admitted: push then evict the new worst
      have hplen : (BinaryHeap.push entScore (e0 :: rest) (some nd, d)).length
          = maxNodes + 1 := by
        rw [BinaryHeap.length_push, hfull]
      have hph : BinaryHeap.heapProp entScore
          (BinaryHeap.push entScore (e0 :: rest) (some nd, d)) :=
        BinaryHeap.push_heapProp entScore _ _ hp
      rcases hP : BinaryHeap.push entScore (e0 :: rest) (some nd, d) with _ | ⟨r, rest2⟩
      · rw [hP] at hplen
        simp at hplen
      have hPh : (r :: rest2).head? = some r := rfl
      rw [hP] at hph
      have hPmem : ∀ e ∈ r :: rest2, e = (some nd, d) ∨ e ∈ e0 :: rest := by
        intro e he
        rw [← hP] at he
        exact BinaryHeap.mem_push entScore _ _ e he
      have hPle : ∀ e ∈ r :: rest2, e.2 ≤ r.2 := heap_all_le_head _ r hph hPh
      refine ⟨true, (BinaryHeap.pop entScore (r :: rest2)).2, ?_, ?_, ?_, ?_, ?_, ?_⟩
      · rw [hcheck]
        congr 1
        simp [hd]
      · rw [if_pos rfl]
        unfold saveNode
        rw [hP]
        rw [if_pos (by rw [← hP, hplen]; omega)]
      · exact BinaryHeap.pop_heapProp entScore _ hph
      · intro e he
        have := BinaryHeap.mem_pop entScore r e rest2 he
        rcases hPmem e (List.mem_cons_of_mem r this) with rfl | hmem
        · simp
        · exact hr e hmem
      · rw [length_pop]
        have : (r :: rest2).length = maxNodes + 1 := by rw [← hP]; exact hplen
        simp at this
        simp [hfull]
        omega
      · -- the popped root is the maximum stored distance
        have hdists : distsM (e0 :: rest) + {d} = distsM (r :: rest2) := by
          rw [← hP, distsM_push, BinaryHeap.add_singleton]
        have hpop2 : distsM (BinaryHeap.pop entScore (r :: rest2)).2
            = (distsM (r :: rest2)).erase r.2 := by
          unfold distsM
          rw [BinaryHeap.pop_multiset]
          rw [show ((r :: rest2 : List Entry) : Multiset Entry)
              = r ::ₘ (rest2 : Multiset Entry) from by simp]
          rw [Multiset.map_cons, Multiset.erase_cons_head]
        rw [hdists, hpop2]
        apply IsKS_erase_top
        · rw [distsM_card]
          have : (r :: rest2).length = maxNodes + 1 := by rw [← hP]; exact hplen
          simpa using this
        · rw [mem_distsM]
          exact ⟨r, List.mem_cons_self r rest2, rfl⟩
        · intro y hy
          rcases (mem_distsM _ y).mp hy with ⟨e, he, hey⟩
          rw [← hey]
          exact hPle e he
    · -- rejected: the heap is unchanged
      refine ⟨false, e0 :: rest, ?_, ?_, hp, hr, ?_, ?_⟩
      · rw [hcheck]
        congr 1
        simp [hd]
      · rw [if_neg (by simp)]
      · rw [hfull]
        omega
      · rw [BinaryHeap.add_singleton]
        apply IsKS_reject
        · rw [distsM_card, hfull]
        · intro x hx
          rcases (mem_distsM _ x).mp hx with ⟨e, he, hex⟩
          rw [← hex]
          exact le_trans (hallle e he) (not_lt.mp hd)

/-- The metric precondition for pruning (spec section 4.3): restricting the
distance to the split axis never overstates the true distance — whenever the
node's coordinate at axis `a` lies between the query's and the point's, the
hyperplane probe distance is a lower bound for the true distance. -/
def AxisMono (eleSize : Nat) (metric : Point → Point → ℤ) : Prop :=
  ∀ (q p obj : Point) (a : Nat), a < eleSize →
    ((q.getD a 0 ≤ obj.getD a 0 ∧ obj.getD a 0 ≤ p.getD a 0) ∨
     (p.getD a 0 ≤ obj.getD a 0 ∧ obj.getD a 0 ≤ q.getD a 0)) →
    metric (probe eleSize q obj a) obj ≤ metric q p

/-- Correctness of the internal-node body of `nearestSearch`, for a given
near/far child assignment: visiting the near child, admitting the node, and
then exploring or pruning the far child realises the k-smallest selection
over the node's own distance and both subtrees' distances. -/
theorem nearestSearch_core (eleSize : Nat) (metric : Point → Point → ℤ) (q : Point)
    (maxNodes : Nat) (hk : 1 ≤ maxNodes) (hnn : ∀ a b, 0 ≤ metric a b)
    (obj : Point) (depth pos : Nat) (l r near far : Node)
    (ihnear : ∀ best, BinaryHeap.heapProp entScore best → AllReal best →
      best.length ≤ maxNodes →
      ∃ best', nearestSearch eleSize metric q maxNodes near best = Except.ok best' ∧
        BinaryHeap.heapProp entScore best' ∧ AllReal best' ∧
        IsKS maxNodes (distsM best + treeDists metric q near) (distsM best'))
    (ihfar : far ≠ Node.nil → ∀ best, BinaryHeap.heapProp entScore best → AllReal best →
      best.length ≤ maxNodes →
      ∃ best', nearestSearch eleSize metric q maxNodes far best = Except.ok best' ∧
        BinaryHeap.heapProp entScore best' ∧ AllReal best' ∧
        IsKS maxNodes (distsM best + treeDists metric q far) (distsM best'))
    (hfarsep : ∀ x ∈ treeDists metric q far,
      metric (probe eleSize q obj (depth % eleSize)) obj ≤ x)
    (best : List Entry) (hp : BinaryHeap.heapProp entScore best) (hreal : AllReal best)
    (hlen : best.length ≤ maxNodes) :
    ∃ best', (match nearestSearch eleSize metric q maxNodes near best with
      | Except.error er => Except.error er
      | Except.ok best1 =>
        match admitCheck maxNodes best1 (metric q obj) with
        | Except.error er => Except.error er
        | Except.ok c =>
          match admitCheck maxNodes
              (if c then
                saveNode maxNodes best1 (Node.node obj depth pos l r) (metric q obj)
              else best1)
              |metric (probe eleSize q obj (depth % eleSize)) obj| with
          | Except.error er => Except.error er
          | Except.ok c2 =>
            if c2 then
              if far = Node.nil then
                Except.ok (if c then
                  saveNode maxNodes best1 (Node.node obj depth pos l r) (metric q obj)
                else best1)
              else
                nearestSearch eleSize metric q maxNodes far
                  (if c then
                    saveNode maxNodes best1 (Node.node obj depth pos l r) (metric q obj)
                  else best1)
            else
              Except.ok (if c then
                saveNode maxNodes best1 (Node.node obj depth pos l r) (metric q obj)
              else best1)) = Except.ok best' ∧
      BinaryHeap.heapProp entScore best' ∧ AllReal best' ∧
      IsKS maxNodes
        (distsM best
          + (treeDists metric q near + (metric q obj ::ₘ treeDists metric q far)))
        (distsM best') := by
  obtain ⟨best1, hs1, hp1, hr1, hks1⟩ := ihnear best hp hreal hlen
  have hlen1 : best1.length ≤ maxNodes := by
    have := hks1.2.1
    rw [distsM_card] at this
    omega
  obtain ⟨c, best2, hch, hsave, hp2, hr2, hlen2, hks2⟩ :=
    admit_step maxNodes best1 (Node.node obj depth pos l r) (metric q obj) hk hlen1 hp1 hr1
  simp only [hs1]
  simp only [hch]
  simp only [hsave]
  have hks12 : IsKS maxNodes (distsM best + (treeDists metric q near + {metric q obj}))
      (distsM best2) := by
    rw [← add_assoc]
    exact IsKS_trans maxNodes _ _ _ _ hks1 hks2
  have hlen2' : best2.length ≤ maxNodes := by omega
  -- the explore path: visit the far child (or return when it is absent)
  have hexplore : ∃ best', (if far = Node.nil then Except.ok best2
      else nearestSearch eleSize metric q maxNodes far best2) = Except.ok best' ∧
      BinaryHeap.heapProp entScore best' ∧ AllReal best' ∧
      IsKS maxNodes
        (distsM best
          + (treeDists metric q near + (metric q obj ::ₘ treeDists metric q far)))
        (distsM best') := by
    by_cases hfar : far = Node.nil
    · refine ⟨best2, by rw [if_pos hfar], hp2, hr2, ?_⟩
      rw [hfar]
      rw [show treeDists metric q Node.nil = 0 from by simp [treeDists, treePoints]]
      rw [show (metric q obj ::ₘ (0 : Multiset ℤ)) = {metric q obj} from rfl]
      exact hks12
    · obtain ⟨best3, hs3, hp3, hr3, hks3⟩ := ihfar hfar best2 hp2 hr2 hlen2'
      refine ⟨best3, by rw [if_neg hfar]; exact hs3, hp3, hr3, ?_⟩
      have hres := IsKS_trans maxNodes _ _ _ _ hks12 hks3
      have hM : distsM best
            + (treeDists metric q near + (metric q obj ::ₘ treeDists metric q far))
          = distsM best + (treeDists metric q near + {metric q obj})
            + treeDists metric q far := by
        rw [← BinaryHeap.add_singleton (treeDists metric q far) (metric q obj)]
        abel
      rw [hM]
      exact hres
  by_cases hroom : best2.length < maxNodes
  · have hc2 : admitCheck maxNodes best2
        |metric (probe eleSize q obj (depth % eleSize)) obj| = Except.ok true := by
      unfold admitCheck
      rw [if_pos hroom]
    obtain ⟨best', hb, hpb, hrb, hksb⟩ := hexplore
    refine ⟨best', ?_, hpb, hrb, hksb⟩
    simp only [hc2]
    simpa using hb
  · -- the heap is full; peek at the current worst entry
    have hfull : best2.length = maxNodes := by omega
    rcases hbest2 : best2 with _ | ⟨f0, frest⟩
    · rw [hbest2] at hfull
      simp at hfull
      omega
    rw [← hbest2]
    have hh2 : best2.head? = some f0 := by rw [hbest2]; rfl
    have hc2 : admitCheck maxNodes best2
        |metric (probe eleSize q obj (depth % eleSize)) obj|
        = Except.ok (decide
            (|metric (probe eleSize q obj (depth % eleSize)) obj| < f0.2)) := by
      unfold admitCheck
      rw [if_neg hroom, hh2]
    by_cases hld : |metric (probe eleSize q obj (depth % eleSize)) obj| < f0.2
    · obtain ⟨best', hb, hpb, hrb, hksb⟩ := hexplore
      refine ⟨best', ?_, hpb, hrb, hksb⟩
      simp only [hc2, decide_eq_true hld]
      simpa using hb
    · -- prune: the far subtree cannot beat the kept entries
      refine ⟨best2, ?_, hp2, hr2, ?_⟩
      · simp only [hc2, decide_eq_false hld]
        simp
      · have hprune : IsKS maxNodes (distsM best2 + treeDists metric q far)
            (distsM best2) := by
          apply IsKS_prune
          · rw [distsM_card, hfull]
          · intro x hx y hy
            rcases (mem_distsM _ y).mp hy with ⟨e, he, hey⟩
            have h1 : y ≤ f0.2 := by
              rw [← hey]
              exact heap_all_le_head best2 f0 hp2 hh2 e he
            have h2 : f0.2 ≤ |metric (probe eleSize q obj (depth % eleSize)) obj| :=
              not_lt.mp hld
            have h3 : |metric (probe eleSize q obj (depth % eleSize)) obj|
                = metric (probe eleSize q obj (depth % eleSize)) obj :=
              abs_of_nonneg (hnn _ _)
            have h4 : metric (probe eleSize q obj (depth % eleSize)) obj ≤ x :=
              hfarsep x hx
            omega
        have hres := IsKS_trans maxNodes _ _ _ _ hks12 hprune
        have hM : distsM best
              + (treeDists metric q near + (metric q obj ::ₘ treeDists metric q far))
            = distsM best + (treeDists metric q near + {metric q obj})
              + treeDists metric q far := by
          rw [← BinaryHeap.add_singleton (treeDists metric q far) (metric q obj)]
          abel
        rw [hM]
        exact hres

theorem treeDists_node (metric : Point → Point → ℤ) (q obj : Point) (depth pos : Nat)
    (l r : Node) :
    treeDists metric q (Node.node obj depth pos l r)
      = treeDists metric q l + (metric q obj ::ₘ treeDists metric q r) := by
  unfold treeDists
  rw [show treePoints (Node.node obj depth pos l r)
      = obj ::ₘ (treePoints l + treePoints r) from rfl]
  rw [Multiset.map_cons, Multiset.map_add, ← Multiset.singleton_add, ← Multiset.singleton_add]
  abel

theorem treeDists_node' (metric : Point → Point → ℤ) (q obj : Point) (depth pos : Nat)
    (l r : Node) :
    treeDists metric q (Node.node obj depth pos l r)
      = treeDists metric q r + (metric q obj ::ₘ treeDists metric q l) := by
  rw [treeDists_node, ← Multiset.singleton_add, ← Multiset.singleton_add]
  abel

/-- Main correctness of `nearestSearch`: on a separated tree, starting from a
real-entry heap with at most `maxNodes` entries, the search succeeds, keeps
the heap invariants, and its final stored distances are the `maxNodes`
smallest among the previous distances and all the subtree's distances. -/
theorem nearestSearch_spec (eleSize : Nat) (metric : Point → Point → ℤ) (q : Point)
    (maxNodes : Nat) (he : 1 ≤ eleSize) (hk : 1 ≤ maxNodes)
    (hnn : ∀ a b, 0 ≤ metric a b) (hmono : AxisMono eleSize metric) :
    ∀ (T : Node), T ≠ Node.nil → AxisSep eleSize T →
    ∀ best, BinaryHeap.heapProp entScore best → AllReal best →
      best.length ≤ maxNodes →
    ∃ best', nearestSearch eleSize metric q maxNodes T best = Except.ok best' ∧
      BinaryHeap.heapProp entScore best' ∧ AllReal best' ∧
      IsKS maxNodes (distsM best + treeDists metric q T) (distsM best') := by
  intro T
  induction T with
  | nil => intro hne; exact absurd rfl hne
  | node obj depth pos l r ihl ihr =>
    intro _ hsep best hp hreal hlen
    have hsep' : (∀ p ∈ treePoints l,
          p.getD (depth % eleSize) 0 ≤ obj.getD (depth % eleSize) 0) ∧
        (∀ p ∈ treePoints r,
          obj.getD (depth % eleSize) 0 ≤ p.getD (depth % eleSize) 0) ∧
        AxisSep eleSize l ∧ AxisSep eleSize r := hsep
    obtain ⟨hsepL, hsepR, hsl, hsr⟩ := hsep'
    have haxis : depth % eleSize < eleSize := Nat.mod_lt depth (by omega)
    simp only [nearestSearch]
    by_cases hleaf : l = Node.nil ∧ r = Node.nil
    · rw [if_pos hleaf]
      obtain ⟨hln, hrn⟩ := hleaf
      subst hln
      subst hrn
      obtain ⟨c, best2, hch, hsave, hp2, hr2, hlen2, hks⟩ :=
        admit_step maxNodes best (Node.node obj depth pos Node.nil Node.nil)
          (metric q obj) hk hlen hp hreal
      simp only [hch]
      refine ⟨best2, by rw [hsave], hp2, hr2, ?_⟩
      rw [show treeDists metric q (Node.node obj depth pos Node.nil Node.nil)
          = {metric q obj} from by
        rw [treeDists_node]
        rw [show treeDists metric q Node.nil = 0 from rfl]
        rfl]
      exact hks
    · rw [if_neg hleaf]
      by_cases hrn : r = Node.nil
      · -- only the left child: near = l, far = r (absent)
        have hlnn : l ≠ Node.nil := fun h => hleaf ⟨h, hrn⟩
        have hbc : (if r = Node.nil then l else if l = Node.nil then r
            else if q.getD (depth % eleSize) 0 < obj.getD (depth % eleSize) 0 then l
            else r) = l := if_pos hrn
        rw [hbc, show (if l = l then r else l) = r from if_pos rfl, treeDists_node]
        refine nearestSearch_core eleSize metric q maxNodes hk hnn obj depth pos l r l r
          (fun b a1 a2 a3 => ihl hlnn hsl b a1 a2 a3)
          (fun hf b a1 a2 a3 => ihr hf hsr b a1 a2 a3)
          ?_ best hp hreal hlen
        intro x hx
        rw [hrn] at hx
        simp [treeDists, treePoints] at hx
      · by_cases hln : l = Node.nil
        · -- only the right child: near = r, far = l (absent)
          have hbc : (if r = Node.nil then l else if l = Node.nil then r
              else if q.getD (depth % eleSize) 0 < obj.getD (depth % eleSize) 0 then l
              else r) = r := by rw [if_neg hrn, if_pos hln]
          have hoc : (if r = l then r else l) = l := by
            by_cases h : r = l
            · rw [if_pos h, h]
            · rw [if_neg h]
          rw [hbc, hoc, treeDists_node']
          refine nearestSearch_core eleSize metric q maxNodes hk hnn obj depth pos l r r l
            (fun b a1 a2 a3 => ihr hrn hsr b a1 a2 a3)
            (fun hf b a1 a2 a3 => ihl hf hsl b a1 a2 a3)
            ?_ best hp hreal hlen
          intro x hx
          rw [hln] at hx
          simp [treeDists, treePoints] at hx
        · by_cases hcmp : q.getD (depth % eleSize) 0 < obj.getD (depth % eleSize) 0
          · -- query left of the split: near = l, far = r
            have hbc : (if r = Node.nil then l else if l = Node.nil then r
                else if q.getD (depth % eleSize) 0 < obj.getD (depth % eleSize) 0 then l
                else r) = l := by rw [if_neg hrn, if_neg hln, if_pos hcmp]
            rw [hbc, show (if l = l then r else l) = r from if_pos rfl, treeDists_node]
            refine nearestSearch_core eleSize metric q maxNodes hk hnn obj depth pos l r l r
              (fun b a1 a2 a3 => ihl hln hsl b a1 a2 a3)
              (fun hf b a1 a2 a3 => ihr hf hsr b a1 a2 a3)
              ?_ best hp hreal hlen
            intro x hx
            rcases Multiset.mem_map.mp hx with ⟨p, hpmem, hpx⟩
            rw [← hpx]
            exact hmono q p obj (depth % eleSize) haxis
              (Or.inl ⟨le_of_lt hcmp, hsepR p hpmem⟩)
          · -- query right of the split: near = r, far = l
            have hbc : (if r = Node.nil then l else if l = Node.nil then r
                else if q.getD (depth % eleSize) 0 < obj.getD (depth % eleSize) 0 then l
                else r) = r := by rw [if_neg hrn, if_neg hln, if_neg hcmp]
            have hoc : (if r = l then r else l) = l := by
              by_cases h : r = l
              · rw [if_pos h, h]
              · rw [if_neg h]
            rw [hbc, hoc, treeDists_node']
            refine nearestSearch_core eleSize metric q maxNodes hk hnn obj depth pos l r r l
              (fun b a1 a2 a3 => ihr hrn hsr b a1 a2 a3)
              (fun hf b a1 a2 a3 => ihl hf hsl b a1 a2 a3)
              ?_ best hp hreal hlen
            intro x hx
            rcases Multiset.mem_map.mp hx with ⟨p, hpmem, hpx⟩
            rw [← hpx]
            exact hmono q p obj (depth % eleSize) haxis
              (Or.inr ⟨hsepL p hpmem, not_lt.mp hcmp⟩)

/-- Result extraction succeeds and keeps exactly the stored distances when
all entries are real and the loop bound equals the heap size. -/
theorem extractGo_spec : ∀ (l : List Entry), AllReal l →
    ∃ res, extractGo l.length l = Except.ok res ∧
      res.map (fun pr => pr.2) = l.map (fun e => e.2) ∧
      (∀ pr ∈ res, (some pr.1, pr.2) ∈ l) := by
  intro l
  induction l with
  | nil => exact fun _ => ⟨[], rfl, rfl, by simp⟩
  | cons e rest ih =>
    intro hreal
    obtain ⟨res, hres, hmap, hmem⟩ := ih (fun e' he' => hreal e' (List.mem_cons_of_mem e he'))
    rcases he1 : e.1 with _ | nd
    · exact absurd he1 (hreal e (List.mem_cons_self e rest))
    refine ⟨(nd, e.2) :: res, ?_, ?_, ?_⟩
    · rw [show (e :: rest).length = rest.length + 1 from rfl]
      rw [extractGo, hres, he1]
    · rw [List.map_cons, List.map_cons, hmap]
    · intro pr hpr
      rcases List.mem_cons.mp hpr with hpr | hpr
      · rw [hpr]
        rw [show ((some nd, e.2) : Entry) = e from by rw [← he1]]
        exact List.mem_cons_self e rest
      · exact List.mem_cons_of_mem e (hmem pr hpr)

/-- For a query with `maxNodes = 0` on a nonempty tree, the search reaches an
admission check with an empty heap and crashes peeking it. -/
theorem nearestSearch_zero (eleSize : Nat) (metric : Point → Point → ℤ) (q : Point) :
    ∀ (T : Node), T ≠ Node.nil →
      nearestSearch eleSize metric q 0 T [] = Except.error JsErr.typeError := by
  intro T
  induction T with
  | nil => intro hne; exact absurd rfl hne
  | node obj depth pos l r ihl ihr =>
    intro _
    simp only [nearestSearch]
    have hcheck : ∀ d : ℤ, admitCheck 0 ([] : List Entry) d = Except.error JsErr.typeError := by
      intro d
      unfold admitCheck
      rw [if_neg (by simp)]
      rfl
    by_cases hleaf : l = Node.nil ∧ r = Node.nil
    · rw [if_pos hleaf, hcheck]
    · rw [if_neg hleaf]
      have hbcne : (if r = Node.nil then l else if l = Node.nil then r
          else if q.getD (depth % eleSize) 0 < obj.getD (depth % eleSize) 0 then l
          else r) ≠ Node.nil := by
        by_cases hrn : r = Node.nil
        · rw [if_pos hrn]
          exact fun h => hleaf ⟨h, hrn⟩
        · rw [if_neg hrn]
          by_cases hln : l = Node.nil
          · rw [if_pos hln]
            exact hrn
          · rw [if_neg hln]
            by_cases hcmp : q.getD (depth % eleSize) 0 < obj.getD (depth % eleSize) 0
            · rw [if_pos hcmp]
              exact hln
            · rw [if_neg hcmp]
              exact hrn
      have hrec : nearestSearch eleSize metric q 0
          (if r = Node.nil then l else if l = Node.nil then r
           else if q.getD (depth % eleSize) 0 < obj.getD (depth % eleSize) 0 then l
           else r) [] = Except.error JsErr.typeError := by
        by_cases hrn : r = Node.nil
        · rw [if_pos hrn]
          exact ihl (by rw [if_pos hrn] at hbcne; exact hbcne)
        · rw [if_neg hrn]
          by_cases hln : l = Node.nil
          · rw [if_pos hln]
            exact ihr hrn
          · rw [if_neg hln]
            by_cases hcmp : q.getD (depth % eleSize) 0 < obj.getD (depth % eleSize) 0
            · rw [if_pos hcmp]
              exact ihl hln
            · rw [if_neg hcmp]
              exact ihr hrn
      rw [hrec]

/-- One admission step of a full heap keeps the size and any upper bound `d`
on all stored distances (the candidate is only admitted when it beats the
peeked worst entry, which is itself bounded by `d`). -/
theorem admit_radius (maxNodes : Nat) (best : List Entry) (nd : Node) (dcand d : ℤ)
    (hfull : best.length = maxNodes) (hballs : ∀ e ∈ best, e.2 ≤ d) :
    admitCheck maxNodes best dcand = Except.error JsErr.typeError ∨
    ∃ c, admitCheck maxNodes best dcand = Except.ok c ∧
      (if c then saveNode maxNodes best nd dcand else best).length = maxNodes ∧
      (∀ e ∈ (if c then saveNode maxNodes best nd dcand else best), e.2 ≤ d) := by
  rcases best with _ | ⟨e0, rest⟩
  · rcases Nat.eq_zero_or_pos maxNodes with h0 | h0
    · -- maxNodes = 0 and empty heap: the peek crashes
      left
      unfold admitCheck
      rw [if_neg (by omega)]
      rfl
    · simp at hfull
      omega
  · right
    have hnl : ¬ (e0 :: rest).length < maxNodes := by omega
    have hcheck : admitCheck maxNodes (e0 :: rest) dcand
        = Except.ok (decide (dcand < e0.2)) := by
      unfold admitCheck
      rw [if_neg hnl]
      rfl
    refine ⟨decide (dcand < e0.2), hcheck, ?_, ?_⟩
    · by_cases hd : dcand < e0.2
      · rw [decide_eq_true hd, if_pos rfl]
        unfold saveNode
        rw [if_pos (by rw [BinaryHeap.length_push]; omega)]
        rcases hP : BinaryHeap.push entScore (e0 :: rest) (some nd, dcand) with _ | ⟨p0, prest⟩
        · have := BinaryHeap.length_push entScore (e0 :: rest) (some nd, dcand)
          rw [hP] at this
          simp at this
        · rw [length_pop]
          have := BinaryHeap.length_push entScore (e0 :: rest) (some nd, dcand)
          rw [hP] at this
          simp at this hfull ⊢
          omega
      · rw [decide_eq_false hd, if_neg (by simp)]
        exact hfull
    · by_cases hd : dcand < e0.2
      · rw [decide_eq_true hd, if_pos rfl]
        intro e he
        unfold saveNode at he
        rw [if_pos (by rw [BinaryHeap.length_push]; omega)] at he
        rcases hP : BinaryHeap.push entScore (e0 :: rest) (some nd, dcand) with _ | ⟨p0, prest⟩
        · have := BinaryHeap.length_push entScore (e0 :: rest) (some nd, dcand)
          rw [hP] at this
          simp at this
        · rw [hP] at he
          have hmem := BinaryHeap.mem_pop entScore p0 e prest he
          have hmem2 : e ∈ p0 :: prest := List.mem_cons_of_mem p0 hmem
          rw [← hP] at hmem2
          rcases BinaryHeap.mem_push entScore _ _ e hmem2 with rfl | hmem3
          · have : dcand ≤ e0.2 := le_of_lt hd
            have : e0.2 ≤ d := hballs e0 (List.mem_cons_self e0 rest)
            simp
            omega
          · exact hballs e hmem3
      · rw [decide_eq_false hd, if_neg (by simp)]
        exact hballs

/-- The radius invariant of the search: starting from a full heap all of
whose stored distances are at most `d`, a successful search ends with a full
heap all of whose stored distances are at most `d`. -/
theorem nearestSearch_radius (eleSize : Nat) (metric : Point → Point → ℤ) (q : Point)
    (maxNodes : Nat) (d : ℤ) :
    ∀ (T : Node) (best best' : List Entry),
      best.length = maxNodes → (∀ e ∈ best, e.2 ≤ d) →
      nearestSearch eleSize metric q maxNodes T best = Except.ok best' →
      best'.length = maxNodes ∧ ∀ e ∈ best', e.2 ≤ d := by
  intro T
  induction T with
  | nil =>
    intro best best' _ _ hres
    simp [nearestSearch] at hres
  | node obj depth pos l r ihl ihr =>
    intro best best' hfull hballs hres
    simp only [nearestSearch] at hres
    by_cases hleaf : l = Node.nil ∧ r = Node.nil
    · rw [if_pos hleaf] at hres
      rcases admit_radius maxNodes best (Node.node obj depth pos l r) (metric q obj) d
          hfull hballs with herr | ⟨c, hc, hlen2, hballs2⟩
      · rw [herr] at hres
        cases hres
      · rw [hc] at hres
        simp only at hres
        have : (if c = true then
            saveNode maxNodes best (Node.node obj depth pos l r) (metric q obj)
          else best) = best' := by
          injection hres
        rw [this] at hlen2 hballs2
        exact ⟨hlen2, hballs2⟩
    · rw [if_neg hleaf] at hres
      have hchild : ∀ (child : Node), child = l ∨ child = r →
          ∀ (b b' : List Entry), b.length = maxNodes → (∀ e ∈ b, e.2 ≤ d) →
          nearestSearch eleSize metric q maxNodes child b = Except.ok b' →
          b'.length = maxNodes ∧ ∀ e ∈ b', e.2 ≤ d := by
        rintro child (rfl | rfl)
        · exact ihl
        · exact ihr
      have hbcor : (if r = Node.nil then l else if l = Node.nil then r
          else if q.getD (depth % eleSize) 0 < obj.getD (depth % eleSize) 0 then l
          else r) = l ∨
          (if r = Node.nil then l else if l = Node.nil then r
          else if q.getD (depth % eleSize) 0 < obj.getD (depth % eleSize) 0 then l
          else r) = r := by
        split_ifs
        · exact Or.inl rfl
        · exact Or.inr rfl
        · exact Or.inl rfl
        · exact Or.inr rfl
      have hocor : (if (if r = Node.nil then l else if l = Node.nil then r
          else if q.getD (depth % eleSize) 0 < obj.getD (depth % eleSize) 0 then l
          else r) = l then r else l) = l ∨
          (if (if r = Node.nil then l else if l = Node.nil then r
          else if q.getD (depth % eleSize) 0 < obj.getD (depth % eleSize) 0 then l
          else r) = l then r else l) = r := by
        by_cases h : (if r = Node.nil then l else if l = Node.nil then r
            else if q.getD (depth % eleSize) 0 < obj.getD (depth % eleSize) 0 then l
            else r) = l
        · rw [if_pos h]
          exact Or.inr rfl
        · rw [if_neg h]
          exact Or.inl rfl
      rcases hnear : nearestSearch eleSize metric q maxNodes
          (if r = Node.nil then l else if l = Node.nil then r
           else if q.getD (depth % eleSize) 0 < obj.getD (depth % eleSize) 0 then l
           else r) best with er | best1
      · rw [hnear] at hres
        cases hres
      · rw [hnear] at hres
        simp only at hres
        obtain ⟨hf1, hb1⟩ := hchild _ hbcor best best1 hfull hballs hnear
        rcases admit_radius maxNodes best1 (Node.node obj depth pos l r) (metric q obj) d
            hf1 hb1 with herr | ⟨c, hc, hlen2, hballs2⟩
        · rw [herr] at hres
          cases hres
        · rw [hc] at hres
          simp only at hres
          rcases admit_radius maxNodes
              (if c = true then
                saveNode maxNodes best1 (Node.node obj depth pos l r) (metric q obj)
              else best1)
              (Node.node obj depth pos l r)
              |metric (probe eleSize q obj (depth % eleSize)) obj| d hlen2 hballs2 with
            herr2 | ⟨c2, hc2, _, _⟩
          · rw [herr2] at hres
            cases hres
          · rw [hc2] at hres
            simp only at hres
            rcases hc2b : c2 with _ | _
            · rw [hc2b] at hres
              simp only [if_neg (by simp : ¬ (false = true))] at hres
              have : (if c = true then
                  saveNode maxNodes best1 (Node.node obj depth pos l r) (metric q obj)
                else best1) = best' := by injection hres
              rw [this] at hlen2 hballs2
              exact ⟨hlen2, hballs2⟩
            · rw [hc2b] at hres
              simp only [if_pos (rfl : (true : Bool) = true)] at hres
              by_cases hfar : (if (if r = Node.nil then l else if l = Node.nil then r
                  else if q.getD (depth % eleSize) 0 < obj.getD (depth % eleSize) 0 then l
                  else r) = l then r else l) = Node.nil
              · rw [if_pos hfar] at hres
                have : (if c = true then
                    saveNode maxNodes best1 (Node.node obj depth pos l r) (metric q obj)
                  else best1) = best' := by injection hres
                rw [this] at hlen2 hballs2
                exact ⟨hlen2, hballs2⟩
              · rw [if_neg hfar] at hres
                exact hchild _ hocor _ best' hlen2 hballs2 hres

theorem seedHeap_eq_replicate (maxNodes : Nat) (d : ℤ) :
    seedHeap maxNodes d = List.replicate maxNodes ((none, d) : Entry) := by
  induction maxNodes with
  | zero => rfl
  | succ k ih =>
    unfold seedHeap at ih ⊢
    rw [List.range_succ, List.foldl_append, ih]
    rw [show List.foldl (fun b _ => BinaryHeap.push entScore b ((none, d) : Entry))
        (List.replicate k ((none, d) : Entry)) [k]
        = BinaryHeap.push entScore (List.replicate k ((none, d) : Entry)) (none, d) from rfl]
    unfold BinaryHeap.push
    rw [show List.replicate k ((none, d) : Entry) ++ [((none, d) : Entry)]
        = List.replicate (k + 1) ((none, d) : Entry) from (List.replicate_succ' _ _).symm]
    rw [show (List.replicate k ((none, d) : Entry)).length = k from List.length_replicate k _]
    rw [BinaryHeap.bubbleUp]
    rw [dif_neg]
    intro ⟨hk0, hlt⟩
    have h1 : BinaryHeap.scAt entScore (List.replicate (k + 1) ((none, d) : Entry)) k = -d := by
      unfold BinaryHeap.scAt
      rw [List.map_replicate]
      rw [List.getD_eq_getElem _ _ (by simp)]
      simp [entScore]
    have h2 : BinaryHeap.scAt entScore (List.replicate (k + 1) ((none, d) : Entry))
        (BinaryHeap.par k) = -d := by
      unfold BinaryHeap.scAt
      rw [List.map_replicate]
      rw [List.getD_eq_getElem _ _ (by simp; have := BinaryHeap.par_lt hk0; omega)]
      simp [entScore]
    rw [h1, h2] at hlt
    omega

theorem extractGo_mem : ∀ (n : Nat) (l : List Entry) (res : List (Node × ℤ)),
    extractGo n l = Except.ok res → ∀ pr ∈ res, (some pr.1, pr.2) ∈ l := by
  intro n
  induction n with
  | zero =>
    intro l res hres pr hpr
    rw [extractGo] at hres
    have : res = [] := by
      injection hres with h
      exact h.symm
    rw [this] at hpr
    simp at hpr
  | succ m ih =>
    intro l res hres pr hpr
    rcases l with _ | ⟨e, rest⟩
    · rw [extractGo] at hres
      cases hres
    · rw [extractGo] at hres
      rcases hrec : extractGo m rest with er | res'
      · rw [hrec] at hres
        cases hres
      · rw [hrec] at hres
        rcases he1 : e.1 with _ | nd
        · rw [he1] at hres
          have : res' = res := by injection hres
          rw [← this] at hpr
          exact List.mem_cons_of_mem e (ih rest res' hrec pr hpr)
        · rw [he1] at hres
          have hres' : (nd, e.2) :: res' = res := by injection hres
          rw [← hres'] at hpr
          rcases List.mem_cons.mp hpr with hpr1 | hpr2
          · rw [hpr1]
            rw [show ((some nd, e.2) : Entry) = e from by rw [← he1]]
            exact List.mem_cons_self e rest
          · exact List.mem_cons_of_mem e (ih rest res' hrec pr hpr2)

theorem sqDist_nonneg (n : Nat) (a b : Point) : 0 ≤ sqDist n a b := by
  unfold sqDist
  apply List.sum_nonneg
  intro x hx
  rcases List.mem_map.mp hx with ⟨i, _, hix⟩
  rw [← hix]
  positivity

theorem getD_map_range (f : Nat → ℤ) (n i : Nat) (h : i < n) (d : ℤ) :
    (((List.range n).map f).getD i d) = f i := by
  rw [List.getD_eq_getElem _ _ (by simpa using h), List.getElem_map]
  congr 1
  simp

theorem sqDist_axisMono (n : Nat) : AxisMono n (sqDist n) := by
  intro q p obj a ha hbetween
  unfold sqDist
  apply List.sum_le_sum
  intro i hi
  have hin : i < n := List.mem_range.mp hi
  by_cases hia : i = a
  · subst hia
    have hprobe : (probe n q obj i).getD i 0 = q.getD i 0 := by
      unfold probe
      rw [getD_map_range _ n i hin]
      rw [if_pos rfl]
    rw [hprobe]
    rcases hbetween with ⟨h1, h2⟩ | ⟨h1, h2⟩ <;> nlinarith
  · have hprobe : (probe n q obj a).getD i 0 = obj.getD i 0 := by
      unfold probe
      rw [getD_map_range _ n i hin]
      rw [if_neg hia]
    rw [hprobe]
    have : (obj.getD i 0 - obj.getD i 0) ^ 2 = 0 := by ring
    rw [this]
    positivity

/-! ### The claims -/

/-- Claim C3 (confirmed): for every tree built by `buildTree` (with the
total-order axis sort), every internal node at axis `a = depth mod eleSize`
has all left-subtree points with coordinate `a` at most its own and all
right-subtree points with coordinate `a` at least its own. -/
theorem claim_C3_axis_separation (eleSize : Nat) (pts : List Point) (depth pos : Nat) :
    AxisSep eleSize (buildTree eleSize pts depth pos).1 :=
  (buildTree_spec eleSize pts.length pts depth pos rfl).2.2.1

/-- Claim C4 (code bug): building from the empty buffer leaves a `null` root,
and `nearest` then dereferences the `null` root inside `nearestSearch`
(kdTree.js line 158 calls it unguarded), raising a TypeError instead of
returning the empty result the specification promises. -/
theorem claim_C4_empty_tree_crash (eleSize : Nat) (metric : Point → Point → ℤ)
    (q : Point) (k : Nat) (maxDistance : Option ℤ) :
    (buildTree eleSize ([] : List Point) 0 0).1 = Node.nil ∧
    nearest eleSize metric Node.nil q k maxDistance = Except.error JsErr.typeError := by
  constructor
  · rw [buildTree]
    rfl
  · unfold nearest
    simp only [nearestSearch]

/-- Claim C10 (confirmed): a supplied `maxDistance` of `0` is falsy in the
`if (maxDistance)` test (kdTree.js line 152), so the heap is not pre-seeded
and the query behaves exactly as if no radius had been supplied. -/
theorem claim_C10_zero_radius_ignored (eleSize : Nat) (metric : Point → Point → ℤ)
    (root : Node) (q : Point) (k : Nat) :
    nearest eleSize metric root q k (some 0) = nearest eleSize metric root q k none := rfl

/-- Evaluation helper: building from a single point yields a leaf. -/
theorem buildTree_single (eleSize : Nat) (p : Point) (depth pos : Nat) :
    buildTree eleSize [p] depth pos = (Node.node p depth pos Node.nil Node.nil, [p]) := by
  rw [buildTree]
  norm_num

/-- Evaluation helper: the two-point example build (the window is sorted in
place, the median is the second slot). -/
theorem buildTree_pair_eval :
    buildTree 1 [[1], [0]] 0 0
      = (Node.node [1] 0 1 (Node.node [0] 1 0 Node.nil Node.nil) Node.nil, [[0], [1]]) := by
  rw [buildTree]
  rw [dif_neg (by decide : ¬ ([[1], [0]] : List Point).length = 0),
    dif_neg (by decide : ¬ ([[1], [0]] : List Point).length = 1)]
  have hsort : quickSortIP (0 % 1) [[1], [0]] = [[0], [1]] := by
    simp [quickSortIP, insSort, insertKey]
  simp only [hsort]
  norm_num
  rw [buildTree]
  norm_num
  rw [buildTree]
  norm_num

/-- Evaluation helper: querying the one-point tree over `[[0]]` with `k = 2`
crashes in result extraction (`bestNodes.content[1]` is `undefined`). -/
theorem nearest_single_k2_typeError :
    nearest 1 (sqDist 1) (buildTree 1 [[0]] 0 0).1 [0] 2 none
      = Except.error JsErr.typeError := by
  rw [buildTree_single]
  simp [nearest, nearestSearch, admitCheck, saveNode, BinaryHeap.push, BinaryHeap.bubbleUp,
    BinaryHeap.scAt, BinaryHeap.par, extractGo, sqDist, probe, entScore, List.range_succ]

/-- Claim C2 (code bug): with `k` larger than the point count, the result
loop reads `bestNodes.content[i][0]` past the end of the backing array
(kdTree.js line 163) and crashes with a TypeError instead of returning the
`N` collected results: here a one-point tree queried with `k = 2`. -/
theorem claim_C2_k_gt_n_crashes :
    nearest 1 (sqDist 1) (buildTree 1 [[0]] 0 0).1 [0] 2 none
      = Except.error JsErr.typeError := nearest_single_k2_typeError

/-- Claim C5, counterexample: the build performs no length validation — on
the buffer `[1,2,3]` with `elementSize = 2` (length not a multiple of the
element size) a root node is constructed rather than the build failing with
`InvalidInput` before any node is constructed. -/
theorem claim_C5_counterexample : buildTreeFlat 2 [1, 2, 3] 0 0 ≠ Node.nil := by
  rw [buildTreeFlat]
  rw [dif_neg (by decide : ¬ (2 : Nat) = 0)]
  rw [dif_neg (by decide : ¬ ([(1 : ℤ), 2, 3]).length = 0)]
  rw [dif_neg (by decide : ¬ ([(1 : ℤ), 2, 3]).length = 2)]
  intro hcon
  cases hcon

/-- Claim C5 (corrected): `kdTree` never validates the buffer length — for
every nonempty buffer, also one whose length is not a multiple of
`eleSize`, the build constructs a root node and raises nothing. -/
theorem claim_C5_amended (eleSize : Nat) (pts : List ℤ)
    (he : 1 ≤ eleSize) (hne : pts ≠ []) :
    buildTreeFlat eleSize pts 0 0 ≠ Node.nil := by
  rw [buildTreeFlat]
  rw [dif_neg (by omega : ¬ eleSize = 0)]
  by_cases h0 : pts.length = 0
  · exact absurd (List.length_eq_zero.mp h0) hne
  rw [dif_neg h0]
  by_cases h1 : pts.length = eleSize
  · rw [dif_pos h1]
    intro hcon
    cases hcon
  · rw [dif_neg h1]
    intro hcon
    cases hcon

/-- Claim C5, witness for the corrected claim at a concrete non-multiple
buffer length. -/
theorem claim_C5_amended_witness :
    (1 ≤ 2 ∧ [(1 : ℤ), 2, 3] ≠ []) ∧ buildTreeFlat 2 [1, 2, 3] 0 0 ≠ Node.nil :=
  ⟨⟨by decide, by decide⟩, claim_C5_amended 2 [1, 2, 3] (by decide) (by decide)⟩

/-- Claim C6, counterexample: a query with `k = 0` on a one-point tree does
not fail with `InvalidInput` before traversal — it raises a runtime
TypeError from inside the traversal (peeking the empty heap). -/
theorem claim_C6_counterexample :
    nearest 1 (sqDist 1) (buildTree 1 [[0]] 0 0).1 [0] 0 none
        = Except.error JsErr.typeError ∧
      JsErr.typeError ≠ JsErr.invalidInput := by
  constructor
  · rw [buildTree_single]
    simp [nearest, nearestSearch, admitCheck, extractGo, sqDist, probe, entScore,
      List.range_succ]
  · decide

/-- Claim C6 (corrected): `nearest` never validates `k`.  A query with
`k = 0` on any nonempty tree starts the traversal and crashes with a
TypeError when the admission test peeks the empty heap
(`bestNodes.peek()[1]`, kdTree.js line 114). -/
theorem claim_C6_amended (eleSize : Nat) (metric : Point → Point → ℤ) (q : Point)
    (root : Node) (maxDistance : Option ℤ) (hne : root ≠ Node.nil) :
    nearest eleSize metric root q 0 maxDistance = Except.error JsErr.typeError := by
  unfold nearest
  have hseed : (match maxDistance with
      | none => ([] : List Entry)
      | some d => if d = 0 then [] else seedHeap 0 d) = ([] : List Entry) := by
    rcases maxDistance with _ | d
    · rfl
    · show (if d = 0 then [] else seedHeap 0 d) = ([] : List Entry)
      by_cases hd : d = 0
      · rw [if_pos hd]
      · rw [if_neg hd, seedHeap_eq_replicate]
        rfl
  rw [hseed, nearestSearch_zero eleSize metric q root hne]

/-- Claim C6, witness for the corrected claim on a concrete one-point tree. -/
theorem claim_C6_amended_witness :
    nearest 1 (sqDist 1) (Node.node [0] 0 0 Node.nil Node.nil) [0] 0 none
      = Except.error JsErr.typeError :=
  claim_C6_amended 1 (sqDist 1) [0] (Node.node [0] 0 0 Node.nil Node.nil) none (by decide)

/-- Claim C7, counterexample: a supplied `maxDistance` of `0` is falsy, so
no radius is enforced — the single point at squared distance `1 > 0` is
returned, violating "every returned distance is at most the supplied
`maxDistance`" at `maxDistance = 0`. -/
theorem claim_C7_counterexample :
    nearest 1 (sqDist 1) (buildTree 1 [[1]] 0 0).1 [0] 1 (some 0)
        = Except.ok [(Node.node [1] 0 0 Node.nil Node.nil, 1)] ∧ ¬ ((1 : ℤ) ≤ 0) := by
  constructor
  · rw [buildTree_single]
    simp [nearest, nearestSearch, admitCheck, saveNode, BinaryHeap.push, BinaryHeap.bubbleUp,
      BinaryHeap.scAt, BinaryHeap.par, extractGo, sqDist, probe, entScore, List.range_succ]
  · decide

/-- Claim C7 (corrected): for every nonzero supplied `maxDistance = d`, the
heap is pre-seeded with `k` placeholder entries scored at `d`, and every
`(node, distance)` pair of a successful query has distance at most `d`. -/
theorem claim_C7_amended (eleSize : Nat) (metric : Point → Point → ℤ) (root : Node)
    (q : Point) (k : Nat) (d : ℤ) (res : List (Node × ℤ)) (hd : d ≠ 0)
    (hres : nearest eleSize metric root q k (some d) = Except.ok res) :
    ∀ pr ∈ res, pr.2 ≤ d := by
  unfold nearest at hres
  rw [show (match (some d : Option ℤ) with
      | none => ([] : List Entry)
      | some d => if d = 0 then [] else seedHeap k d) = seedHeap k d from by
    show (if d = 0 then [] else seedHeap k d) = seedHeap k d
    rw [if_neg hd]] at hres
  rcases hsearch : nearestSearch eleSize metric q k root (seedHeap k d) with er | best1
  · rw [hsearch] at hres
    cases hres
  · rw [hsearch] at hres
    have hseedlen : (seedHeap k d).length = k := by
      rw [seedHeap_eq_replicate]
      simp
    have hseedball : ∀ e ∈ seedHeap k d, e.2 ≤ d := by
      rw [seedHeap_eq_replicate]
      intro e he
      rw [List.eq_of_mem_replicate he]
    obtain ⟨hlen1, hball1⟩ := nearestSearch_radius eleSize metric q k d root
      (seedHeap k d) best1 hseedlen hseedball hsearch
    intro pr hpr
    exact hball1 _ (extractGo_mem k best1 res hres pr hpr)

/-- Claim C7, witness for the corrected claim: a one-point tree queried with
radius `5`; the point at squared distance `1` beats the placeholder, is
admitted (evicting it), and the returned distance is within the radius. -/
theorem claim_C7_amended_witness :
    nearest 1 (sqDist 1) (buildTree 1 [[1]] 0 0).1 [0] 1 (some 5)
      = Except.ok [(Node.node [1] 0 0 Node.nil Node.nil, 1)] ∧ (1 : ℤ) ≤ 5 := by
  have heval : nearest 1 (sqDist 1) (buildTree 1 [[1]] 0 0).1 [0] 1 (some 5)
      = Except.ok [(Node.node [1] 0 0 Node.nil Node.nil, 1)] := by
    rw [buildTree_single]
    simp [nearest, nearestSearch, seedHeap_eq_replicate, admitCheck, saveNode,
      BinaryHeap.push, BinaryHeap.bubbleUp, BinaryHeap.scAt, BinaryHeap.par,
      BinaryHeap.pop, BinaryHeap.sinkDown, BinaryHeap.sinkThreshold, BinaryHeap.swapL,
      extractGo, sqDist, probe, entScore, List.range_succ]
  refine ⟨heval, ?_⟩
  exact claim_C7_amended 1 (sqDist 1) (buildTree 1 [[1]] 0 0).1 [0] 1 5
    [(Node.node [1] 0 0 Node.nil Node.nil, 1)] (by decide) heval
    (Node.node [1] 0 0 Node.nil Node.nil, 1) (by simp)

/-- Claim C8: across every sequence of `push`/`pop` operations starting
from the empty heap, the array satisfies the heap property — the entry at
position `n` scores at most its children at `2n+1` and `2n+2` (equivalently
each entry scores at least its parent at `(n+1)/2 - 1`) — and consequently
`peek` and `pop` return a minimum-score entry. -/
theorem claim_C8_heap_invariant {α : Type} (score : α → ℤ)
    (ops : List (BinaryHeap.HeapOp α)) :
    (∀ n c, (c = 2 * n + 1 ∨ c = 2 * n + 2) →
        c < (BinaryHeap.execOps score ops).length →
        BinaryHeap.scAt score (BinaryHeap.execOps score ops) n
          ≤ BinaryHeap.scAt score (BinaryHeap.execOps score ops) c) ∧
    (∀ x, BinaryHeap.peek (BinaryHeap.execOps score ops) = some x →
        ∀ e ∈ BinaryHeap.execOps score ops, score x ≤ score e) ∧
    (∀ x, (BinaryHeap.pop score (BinaryHeap.execOps score ops)).1 = some x →
        ∀ e ∈ BinaryHeap.execOps score ops, score x ≤ score e) := by
  have hp := BinaryHeap.execOps_heapProp score ops
  refine ⟨?_, ?_, ?_⟩
  · intro n c hc hlt
    have hstep := hp c hlt (by omega)
    have hpar : BinaryHeap.par c = n := by
      unfold BinaryHeap.par
      omega
    rwa [hpar] at hstep
  · intro x hx e he
    exact BinaryHeap.heapProp_head_min score _ x e hp hx he
  · intro x hx e he
    rw [BinaryHeap.pop_fst] at hx
    exact BinaryHeap.heapProp_head_min score _ x e hp hx he

/-- Claim C8, witness: pushing `3` then `5` yields the heap `[3, 5]`, whose
peek is `3`, and the invariant theorem bounds it below the member `5`. -/
theorem claim_C8_heap_invariant_witness :
    BinaryHeap.peek (BinaryHeap.execOps (fun x : ℤ => x)
        [BinaryHeap.HeapOp.push 3, BinaryHeap.HeapOp.push 5]) = some 3 ∧
    (5 : ℤ) ∈ BinaryHeap.execOps (fun x : ℤ => x)
        [BinaryHeap.HeapOp.push 3, BinaryHeap.HeapOp.push 5] ∧
    (3 : ℤ) ≤ 5 := by
  have h1 : BinaryHeap.push (fun x : ℤ => x) [] 3 = [3] := by
    unfold BinaryHeap.push
    rw [BinaryHeap.bubbleUp, dif_neg (by decide)]
    rfl
  have h2 : BinaryHeap.push (fun x : ℤ => x) [3] 5 = [3, 5] := by
    unfold BinaryHeap.push
    rw [BinaryHeap.bubbleUp, dif_neg (by decide)]
    rfl
  have hexec : BinaryHeap.execOps (fun x : ℤ => x)
      [BinaryHeap.HeapOp.push 3, BinaryHeap.HeapOp.push 5] = [3, 5] := by
    simp only [BinaryHeap.execOps, List.foldl, BinaryHeap.execOp]
    rw [h1, h2]
  have hx : BinaryHeap.peek (BinaryHeap.execOps (fun x : ℤ => x)
      [BinaryHeap.HeapOp.push 3, BinaryHeap.HeapOp.push 5]) = some 3 := by
    rw [hexec]
    rfl
  have hm : (5 : ℤ) ∈ BinaryHeap.execOps (fun x : ℤ => x)
      [BinaryHeap.HeapOp.push 3, BinaryHeap.HeapOp.push 5] := by
    rw [hexec]
    decide
  exact ⟨hx, hm, (claim_C8_heap_invariant (fun x : ℤ => x)
    [BinaryHeap.HeapOp.push 3, BinaryHeap.HeapOp.push 5]).2.1 3 hx 5 hm⟩

/-- Claim C9, counterexample: the stored index does not point into the
original input ordering.  Building from `[[1], [0]]` sorts the buffer in
place to `[[0], [1]]` and the root stores point `[1]` with index `1`, but
index `1` of the original buffer holds `[0]`. -/
theorem claim_C9_counterexample :
    ¬ ∀ pr ∈ nodeList (buildTree 1 [[1], [0]] 0 0).1,
        ([[1], [0]] : List Point).getD pr.2 [] = pr.1 := by
  intro h
  have hroot : ((([1] : Point), 1) : Point × Nat)
      ∈ nodeList (buildTree 1 [[1], [0]] 0 0).1 := by
    rw [buildTree_pair_eval]
    decide
  exact absurd (h _ hroot) (by decide)

/-- Claim C9 (corrected): every node's stored index is the point's absolute
position in the buffer as it stands *after* the build, i.e. after the
in-place window sorts (`median + pos` accumulates the window offsets into
the post-sort buffer, kdTree.js line 63). -/
theorem claim_C9_amended (eleSize : Nat) (pts : List Point) :
    ∀ pr ∈ nodeList (buildTree eleSize pts 0 0).1,
      (buildTree eleSize pts 0 0).2.getD pr.2 [] = pr.1 := by
  intro pr hpr
  obtain ⟨-, -, -, h4⟩ := buildTree_spec eleSize pts.length pts 0 0 rfl
  have hidx := (h4 pr hpr).2.2
  simpa using hidx

/-- Claim C9, witness: in the two-point build the root stores `[1]` at
index `1`, and slot `1` of the post-build buffer `[[0], [1]]` is `[1]`. -/
theorem claim_C9_amended_witness :
    ((([1] : Point), 1) : Point × Nat) ∈ nodeList (buildTree 1 [[1], [0]] 0 0).1 ∧
    (buildTree 1 [[1], [0]] 0 0).2.getD 1 [] = ([1] : Point) := by
  have hmem : ((([1] : Point), 1) : Point × Nat)
      ∈ nodeList (buildTree 1 [[1], [0]] 0 0).1 := by
    rw [buildTree_pair_eval]
    decide
  exact ⟨hmem, claim_C9_amended 1 [[1], [0]] (([1], 1) : Point × Nat) hmem⟩

/-- Claim C1, counterexample: the claim quantifies over every `k ≥ 1`, but
for `k` exceeding the point count the query crashes in result extraction
instead of returning the brute-force answer: one point, `k = 2`. -/
theorem claim_C1_counterexample :
    ¬ ∃ res, nearest 1 (sqDist 1) (buildTree 1 [[0]] 0 0).1 [0] 2 none = Except.ok res ∧
      ((res.map (fun pr => pr.2) : List ℤ) : Multiset ℤ)
        = kSmallestDists 2 (([[0]] : List Point).map (fun p => sqDist 1 [0] p)) := by
  rintro ⟨res, hres, -⟩
  rw [nearest_single_k2_typeError] at hres
  cases hres

/-- Claim C1 (corrected): restricted to `k ≤ N`, the query over the built
tree with no radius succeeds and returns, as a multiset, exactly the `k`
smallest `metric q ·` values of the buffer, for every non-negative,
per-axis monotonic metric (e.g. squared Euclidean). -/
theorem claim_C1_amended (eleSize : Nat) (metric : Point → Point → ℤ) (q : Point)
    (pts : List Point) (k : Nat) (he : 1 ≤ eleSize) (hk : 1 ≤ k)
    (hkN : k ≤ pts.length) (hnn : ∀ a b, 0 ≤ metric a b)
    (hmono : AxisMono eleSize metric) :
    ∃ res, nearest eleSize metric (buildTree eleSize pts 0 0).1 q k none = Except.ok res ∧
      ((res.map (fun pr => pr.2) : List ℤ) : Multiset ℤ)
        = kSmallestDists k (pts.map (fun p => metric q p)) := by
  obtain ⟨htp, -, hsep, -⟩ := buildTree_spec eleSize pts.length pts 0 0 rfl
  have hTne : (buildTree eleSize pts 0 0).1 ≠ Node.nil := by
    intro h0
    have hc : Multiset.card (treePoints (buildTree eleSize pts 0 0).1) = pts.length := by
      rw [htp]
      simp
    rw [h0] at hc
    simp [treePoints] at hc
    omega
  obtain ⟨best', hs, hp', hr', hks⟩ :=
    nearestSearch_spec eleSize metric q k he hk hnn hmono
      (buildTree eleSize pts 0 0).1 hTne hsep []
      (by intro j hj hj0; simp at hj) (by intro e he'; simp at he') (by simp)
  have htd : treeDists metric q (buildTree eleSize pts 0 0).1
      = ((pts.map (fun p => metric q p) : List ℤ) : Multiset ℤ) := by
    unfold treeDists
    rw [htp]
    simp
  have hks' : IsKS k ((pts.map (fun p => metric q p) : List ℤ) : Multiset ℤ)
      (distsM best') := by
    have h0 : distsM ([] : List Entry) = 0 := rfl
    rwa [h0, zero_add, htd] at hks
  have huniq : distsM best' = kSmallestDists k (pts.map (fun p => metric q p)) :=
    IsKS_unique k _ _ _ hks' (IsKS_sorted_take k (pts.map (fun p => metric q p)))
  have hlen' : best'.length = k := by
    have hcard := hks'.2.1
    rw [distsM_card] at hcard
    simp at hcard
    omega
  obtain ⟨res, hext, hmap, -⟩ := extractGo_spec best' hr'
  refine ⟨res, ?_, ?_⟩
  · unfold nearest
    rw [show (match (none : Option ℤ) with
        | none => ([] : List Entry)
        | some d => if d = 0 then [] else seedHeap k d) = [] from rfl]
    simp only [hs]
    rw [← hlen']
    exact hext
  · rw [hmap, ← huniq]
    unfold distsM
    simp

/-- Claim C1, witness for the corrected claim: one point `[5]`, query `[2]`,
`k = 1`, squared one-dimensional distance. -/
theorem claim_C1_amended_witness :
    ∃ res, nearest 1 (sqDist 1) (buildTree 1 [[5]] 0 0).1 [2] 1 none = Except.ok res ∧
      ((res.map (fun pr => pr.2) : List ℤ) : Multiset ℤ)
        = kSmallestDists 1 (([[5]] : List Point).map (fun p => sqDist 1 [2] p)) :=
  claim_C1_amended 1 (sqDist 1) [2] [[5]] 1 (by decide) (by decide) (by decide)
    (fun a b => sqDist_nonneg 1 a b) (sqDist_axisMono 1)
